import Mathlib

/-!
Shallow embedding of the single-instrument limit order book implemented in
`order_book.py` / `order.py` (class `LimitOrderBook`, dataclass `Order`),
together with proofs of the specification claims about it.

Modelling conventions:
* Python `datetime` values are modelled as natural numbers; the ambient clock
  (`datetime.now(timezone.utc)`) is made explicit as a function `clock : Nat → Nat`
  from call-index (tick) to time, threaded through the computation, because the
  Python code reads the wall clock at several points during one `add_order` call.
* Python `float` prices are modelled as `Int` (only `<`, `>`, `=` comparisons
  occur in the source).  `quantity` is an `int` kept non-negative by the source
  (every decrement is by `min` with the current value), hence `Nat`.
* The optional `timestamp` field is `Option Nat`; the optional `price` field of
  market orders is never read by the source on the market path, so `price` is
  modelled as a plain `Int` that the market path ignores.
* The source mutates `Order` objects in place; the embedding passes the updated
  order and updated book side explicitly.
-/

namespace LOB

/-- Mirror of the `Order` dataclass of `order.py`. -/
structure Order where
  id : String
  symbol : String
  side : String
  quantity : Nat
  type : String
  price : Int
  timestamp : Option Nat
deriving Repr, DecidableEq

/-- Mirror of the execution-report dictionaries built in `_match_limit` and
`_execute_market`. -/
structure Report where
  orderId : String
  symbol : String
  side : String
  filledQty : Nat
  price : Int
  timestamp : Nat
  status : String
deriving Repr, DecidableEq

/-- Builder for one execution report, exactly the dictionary literal of the
source: `status` is `"filled"` when the fill quantity equals the order's
quantity *before* the decrement, else `"partial_fill"`. -/
def mkReport (o : Order) (fillQty : Nat) (tradePrice : Int) (ts : Nat) : Report :=
  { orderId := o.id
    symbol := o.symbol
    side := o.side
    filledQty := fillQty
    price := tradePrice
    timestamp := ts
    status := if fillQty = o.quantity then "filled" else "partial_fill" }

/-- Result of one matching loop: the emitted reports, the incoming order with
its decremented quantity, the updated opposite side, and the next clock tick. -/
structure MatchRes where
  reports : List Report
  order : Order
  opp : List Order
  tick : Nat
deriving Repr, DecidableEq

/-- Mirror of `LimitOrderBook._match_limit`: the `while order.quantity > 0 and
opposite` loop with the price gate.  Structural recursion on the opposite side
is justified because an iteration that leaves the head resting (i.e. does not
pop it) has `best.quantity > fill_qty = min(order.quantity, best.quantity)`,
which forces `fill_qty = order.quantity`, so the loop guard
`order.quantity > 0` fails on re-entry and the loop exits. -/
def matchLimit (clock : Nat → Nat) : Nat → Order → List Order → MatchRes
  | k, ord, [] => ⟨[], ord, [], k⟩
  | k, ord, best :: rest =>
    if ord.quantity = 0 then ⟨[], ord, best :: rest, k⟩
    -- buy order matches only if best ask <= order.price
    else if ord.side = "buy" ∧ best.price > ord.price then ⟨[], ord, best :: rest, k⟩
    -- sell order matches only if best bid >= order.price
    else if ord.side = "sell" ∧ best.price < ord.price then ⟨[], ord, best :: rest, k⟩
    else
      let fillQty := min ord.quantity best.quantity
      let tradePrice := best.price
      let ts := clock k
      let r1 := mkReport ord fillQty tradePrice ts
      let r2 := mkReport best fillQty tradePrice ts
      let ord2 := { ord with quantity := ord.quantity - fillQty }
      let best2 := { best with quantity := best.quantity - fillQty }
      if best2.quantity = 0 then
        -- resting order fully filled: pop it and keep looping
        let res := matchLimit clock (k + 1) ord2 rest
        ⟨r1 :: r2 :: res.reports, res.order, res.opp, res.tick⟩
      else
        -- head stays: then fillQty = ord.quantity, the guard fails, loop exits
        ⟨[r1, r2], ord2, best2 :: rest, k + 1⟩

/-- Mirror of `LimitOrderBook._execute_market`: identical loop without the
price gate. -/
def executeMarket (clock : Nat → Nat) : Nat → Order → List Order → MatchRes
  | k, ord, [] => ⟨[], ord, [], k⟩
  | k, ord, best :: rest =>
    if ord.quantity = 0 then ⟨[], ord, best :: rest, k⟩
    else
      let fillQty := min ord.quantity best.quantity
      let tradePrice := best.price
      let ts := clock k
      let r1 := mkReport ord fillQty tradePrice ts
      let r2 := mkReport best fillQty tradePrice ts
      let ord2 := { ord with quantity := ord.quantity - fillQty }
      let best2 := { best with quantity := best.quantity - fillQty }
      if best2.quantity = 0 then
        let res := executeMarket clock (k + 1) ord2 rest
        ⟨r1 :: r2 :: res.reports, res.order, res.opp, res.tick⟩
      else
        ⟨[r1, r2], ord2, best2 :: rest, k + 1⟩

/-- Mirror of the inner `while` of `LimitOrderBook._insert_resting`: among
resting orders at the same price, keep moving right while the resting order's
timestamp is `None`, or the incoming timestamp is `None`, or the resting
timestamp is `<=` the incoming one. -/
def insertSamePrice (ord : Order) : List Order → List Order
  | [] => [ord]
  | b :: rest =>
    if b.price = ord.price ∧
        (b.timestamp = none ∨ ord.timestamp = none ∨
          b.timestamp.getD 0 ≤ ord.timestamp.getD 0) then
      b :: insertSamePrice ord rest
    else
      ord :: b :: rest

/-- Mirror of `LimitOrderBook._insert_resting`: scan past strictly better
prices (descending for bids, ascending for asks); on hitting an equal price
hand over to the same-price time-priority scan; on hitting a worse price (or
the end) insert here.  The index computation plus `book.insert(idx, order)` of
the source is rendered as direct structural insertion at the same position. -/
def insertResting (ord : Order) : List Order → List Order
  | [] => [ord]
  | b :: rest =>
    -- for bids: descending price; for asks: ascending price
    if (if ord.side = "buy" then b.price > ord.price else b.price < ord.price) then
      b :: insertResting ord rest
    else if b.price = ord.price then
      insertSamePrice ord (b :: rest)
    else
      ord :: b :: rest

/-- State of `LimitOrderBook` for one symbol: the two sides. -/
structure Book where
  bids : List Order
  asks : List Order
deriving Repr, DecidableEq

/-- Shared limit-order path of `add_order`: match immediately, then insert any
leftover quantity into the order's own side.  The `"limit"` branch and the
final `else` branch (stop and any other kind) of `add_order` are this same
code, textually duplicated in the source. -/
def limitFlow (clock : Nat → Nat) (k : Nat) (book : Book) (ord : Order) :
    List Report × Book :=
  if ord.side = "buy" then
    let res := matchLimit clock k ord book.asks
    let book2 : Book := ⟨book.bids, res.opp⟩
    if res.order.quantity > 0 then
      (res.reports, ⟨insertResting res.order book2.bids, book2.asks⟩)
    else
      (res.reports, book2)
  else
    let res := matchLimit clock k ord book.bids
    let book2 : Book := ⟨res.opp, book.asks⟩
    if res.order.quantity > 0 then
      (res.reports, ⟨book2.bids, insertResting res.order book2.asks⟩)
    else
      (res.reports, book2)

/-- Timestamp assignment at the top of `add_order`: `if order.timestamp is
None: order.timestamp = datetime.now(...)`, reading clock tick 0. -/
def stamped (clock : Nat → Nat) (ord : Order) : Order :=
  if ord.timestamp = none then { ord with timestamp := some (clock 0) } else ord

/-- First clock tick available to the matching loop: tick 0 is consumed by
`stamped` exactly when the incoming order had no timestamp. -/
def startTick (ord : Order) : Nat := if ord.timestamp = none then 1 else 0

theorem stamped_isSome (clock : Nat → Nat) (ord : Order) :
    (stamped clock ord).timestamp.isSome := by
  unfold stamped
  by_cases h : ord.timestamp = none
  · rw [if_pos h]; rfl
  · rw [if_neg h]; exact Option.isSome_iff_ne_none.mpr h

theorem stamped_fields (clock : Nat → Nat) (ord : Order) :
    (stamped clock ord).id = ord.id ∧ (stamped clock ord).symbol = ord.symbol ∧
      (stamped clock ord).side = ord.side ∧
      (stamped clock ord).quantity = ord.quantity ∧
      (stamped clock ord).type = ord.type ∧
      (stamped clock ord).price = ord.price := by
  unfold stamped
  by_cases h : ord.timestamp = none
  · rw [if_pos h]; exact ⟨rfl, rfl, rfl, rfl, rfl, rfl⟩
  · rw [if_neg h]; exact ⟨rfl, rfl, rfl, rfl, rfl, rfl⟩

/-- Mirror of `LimitOrderBook.add_order`: assign a timestamp when absent
(consuming clock tick 0), then dispatch on the order kind.  Market orders run
`_execute_market` and any remainder is discarded; `"limit"` and every other
kind run the match-then-rest limit path. -/
def addOrder (clock : Nat → Nat) (book : Book) (ord0 : Order) :
    List Report × Book :=
  let ord := stamped clock ord0
  let k := startTick ord0
  if ord.type = "market" then
    if ord.side = "buy" then
      let res := executeMarket clock k ord book.asks
      (res.reports, ⟨book.bids, res.opp⟩)
    else
      let res := executeMarket clock k ord book.bids
      (res.reports, ⟨res.opp, book.asks⟩)
  else if ord.type = "limit" then
    limitFlow clock k book ord
  else
    -- stop orders (and any other kind) are treated as plain limit orders
    limitFlow clock k book ord

/-! ## Derived notions used by the statements and proofs -/

/-- Combined loop-break condition of `_match_limit` (the two `break` tests). -/
def limitStop (ord best : Order) : Bool :=
  decide (ord.side = "buy" ∧ best.price > ord.price) ||
    decide (ord.side = "sell" ∧ best.price < ord.price)

/-- Generalisation of the two matching loops over their stop condition; used
only to share proofs between `matchLimit` (with `limitStop`) and
`executeMarket` (with the never-true stop). -/
def loopGen (stop : Order → Order → Bool) (clock : Nat → Nat) :
    Nat → Order → List Order → MatchRes
  | k, ord, [] => ⟨[], ord, [], k⟩
  | k, ord, best :: rest =>
    if ord.quantity = 0 then ⟨[], ord, best :: rest, k⟩
    else if stop ord best then ⟨[], ord, best :: rest, k⟩
    else
      let fillQty := min ord.quantity best.quantity
      let ts := clock k
      let r1 := mkReport ord fillQty best.price ts
      let r2 := mkReport best fillQty best.price ts
      let ord2 := { ord with quantity := ord.quantity - fillQty }
      let best2 := { best with quantity := best.quantity - fillQty }
      if best2.quantity = 0 then
        let res := loopGen stop clock (k + 1) ord2 rest
        ⟨r1 :: r2 :: res.reports, res.order, res.opp, res.tick⟩
      else
        ⟨[r1, r2], ord2, best2 :: rest, k + 1⟩

theorem matchLimit_eq_loopGen (clock : Nat → Nat) (k : Nat) (ord : Order)
    (opp : List Order) :
    matchLimit clock k ord opp = loopGen limitStop clock k ord opp := by
  induction opp generalizing k ord with
  | nil => rfl
  | cons best rest ih =>
    simp only [matchLimit, loopGen, limitStop]
    by_cases h0 : ord.quantity = 0
    · simp [h0]
    · by_cases hb : ord.side = "buy" ∧ best.price > ord.price
      · simp [h0, hb]
      · by_cases hs : ord.side = "sell" ∧ best.price < ord.price
        · simp [h0, hb, hs]
        · simp [h0, hb, hs, ih]

theorem executeMarket_eq_loopGen (clock : Nat → Nat) (k : Nat) (ord : Order)
    (opp : List Order) :
    executeMarket clock k ord opp = loopGen (fun _ _ => false) clock k ord opp := by
  induction opp generalizing k ord with
  | nil => rfl
  | cons best rest ih =>
    simp only [executeMarket, loopGen]
    by_cases h0 : ord.quantity = 0
    · simp [h0]
    · simp [h0, ih]

/-- The matching loop changes the incoming order only in its `quantity`
field, and never increases it. -/
theorem loopGen_order (stop : Order → Order → Bool) (clock : Nat → Nat)
    (k : Nat) (ord : Order) (opp : List Order) :
    ∃ q, (loopGen stop clock k ord opp).order = { ord with quantity := q } ∧
      q ≤ ord.quantity := by
  induction opp generalizing k ord with
  | nil => exact ⟨ord.quantity, rfl, le_refl _⟩
  | cons best rest ih =>
    simp only [loopGen]
    by_cases h0 : ord.quantity = 0
    · rw [if_pos h0]
      exact ⟨ord.quantity, rfl, le_refl _⟩
    · rw [if_neg h0]
      by_cases hst : stop ord best
      · simp only [hst, if_true]
        exact ⟨ord.quantity, rfl, le_refl _⟩
      · simp only [hst, Bool.false_eq_true, if_false]
        by_cases hb2 : best.quantity - min ord.quantity best.quantity = 0
        · simp only [hb2, if_pos]
          obtain ⟨q, hq, hle⟩ :=
            ih (k + 1) { ord with quantity := ord.quantity - min ord.quantity best.quantity }
          exact ⟨q, hq, le_trans hle (Nat.sub_le _ _)⟩
        · simp only [hb2, if_neg]
          exact ⟨ord.quantity - min ord.quantity best.quantity, rfl, Nat.sub_le _ _⟩

/-- Every order left on the opposite side after the matching loop comes from
a resting order that was there before: same id, price, side, symbol and
timestamp, with a quantity no larger than before. -/
theorem loopGen_opp_mem (stop : Order → Order → Bool) (clock : Nat → Nat)
    (k : Nat) (ord : Order) (opp : List Order) :
    ∀ o ∈ (loopGen stop clock k ord opp).opp, ∃ o0 ∈ opp,
      o.id = o0.id ∧ o.price = o0.price ∧ o.side = o0.side ∧
      o.symbol = o0.symbol ∧ o.timestamp = o0.timestamp ∧
      o.quantity ≤ o0.quantity := by
  induction opp generalizing k ord with
  | nil => intro o ho; simp only [loopGen] at ho; simp at ho
  | cons best rest ih =>
    intro o ho
    simp only [loopGen] at ho
    by_cases h0 : ord.quantity = 0
    · simp only [h0, if_pos rfl] at ho
      exact ⟨o, ho, rfl, rfl, rfl, rfl, rfl, le_refl _⟩
    · simp only [h0, if_neg h0] at ho
      by_cases hst : stop ord best
      · simp only [hst, if_true] at ho
        exact ⟨o, ho, rfl, rfl, rfl, rfl, rfl, le_refl _⟩
      · simp only [hst, Bool.false_eq_true, if_false] at ho
        by_cases hb2 : best.quantity - min ord.quantity best.quantity = 0
        · simp only [hb2, if_pos] at ho
          obtain ⟨o0, ho0, h⟩ :=
            ih (k + 1) { ord with quantity := ord.quantity - min ord.quantity best.quantity } o ho
          exact ⟨o0, List.mem_cons_of_mem _ ho0, h⟩
        · simp only [hb2, if_neg] at ho
          rcases List.mem_cons.mp ho with rfl | hmem
          · exact ⟨best, List.mem_cons_self _ _, rfl, rfl, rfl, rfl, rfl, Nat.sub_le _ _⟩
          · exact ⟨o, List.mem_cons_of_mem _ hmem, rfl, rfl, rfl, rfl, rfl, le_refl _⟩

/-- Every report emitted by the matching loop names either the incoming order
or one of the resting orders of the opposite side. -/
theorem loopGen_reports_ids (stop : Order → Order → Bool) (clock : Nat → Nat)
    (k : Nat) (ord : Order) (opp : List Order) :
    ∀ r ∈ (loopGen stop clock k ord opp).reports,
      r.orderId = ord.id ∨ r.orderId ∈ opp.map Order.id := by
  induction opp generalizing k ord with
  | nil => intro r hr; simp only [loopGen] at hr; simp at hr
  | cons best rest ih =>
    intro r hr
    simp only [loopGen] at hr
    by_cases h0 : ord.quantity = 0
    · simp only [h0, if_pos rfl] at hr; simp at hr
    · simp only [h0, if_neg h0] at hr
      by_cases hst : stop ord best
      · simp only [hst, if_true] at hr; simp at hr
      · simp only [hst, Bool.false_eq_true, if_false] at hr
        by_cases hb2 : best.quantity - min ord.quantity best.quantity = 0
        · simp only [hb2, if_pos] at hr
          rcases List.mem_cons.mp hr with rfl | hr'
          · exact Or.inl rfl
          · rcases List.mem_cons.mp hr' with rfl | hr''
            · exact Or.inr (by simp [mkReport])
            · rcases ih (k + 1)
                { ord with quantity := ord.quantity - min ord.quantity best.quantity } r hr''
                with h | h
              · exact Or.inl h
              · exact Or.inr (List.mem_cons_of_mem _ h)
        · simp only [hb2, if_neg] at hr
          rcases List.mem_cons.mp hr with rfl | hr'
          · exact Or.inl rfl
          · rcases List.mem_cons.mp hr' with rfl | hr''
            · exact Or.inr (by simp [mkReport])
            · simp at hr''

/-- Timestamp value of an order (defaulting absent to 0; the invariants below
require presence, under which this is exact). -/
def tsVal (o : Order) : Nat := o.timestamp.getD 0

/-- Ordering of the bid side: strictly descending price, then ascending
timestamp among equal prices. -/
def bidBefore (a b : Order) : Prop :=
  b.price < a.price ∨ (a.price = b.price ∧ tsVal a ≤ tsVal b)

/-- Ordering of the ask side: strictly ascending price, then ascending
timestamp among equal prices. -/
def askBefore (a b : Order) : Prop :=
  a.price < b.price ∨ (a.price = b.price ∧ tsVal a ≤ tsVal b)

instance (a b : Order) : Decidable (bidBefore a b) := by
  unfold bidBefore; infer_instance

instance (a b : Order) : Decidable (askBefore a b) := by
  unfold askBefore; infer_instance

/-- Side invariant: sorted for the side's ordering, all resting quantities
positive, all resting timestamps present. -/
def SideInv (rel : Order → Order → Prop) (l : List Order) : Prop :=
  l.Pairwise rel ∧ (∀ o ∈ l, 0 < o.quantity) ∧ (∀ o ∈ l, o.timestamp.isSome)

/-- Book invariant: both sides satisfy their side invariant. -/
def BookInv (b : Book) : Prop :=
  SideInv bidBefore b.bids ∧ SideInv askBefore b.asks

/-- The price comparison `better_price` of `_insert_resting`, as a `Prop`. -/
def strictlyBetter (ord x : Order) : Prop :=
  if ord.side = "buy" then ord.price < x.price else x.price < ord.price

/-- Ordering of the side an order rests on: bid ordering for buys, ask
ordering for everything else (mirroring `self.bids if order.side == "buy"
else self.asks`). -/
def sideRel (ord : Order) : Order → Order → Prop :=
  if ord.side = "buy" then bidBefore else askBefore

instance (ord : Order) : DecidableRel (sideRel ord) := fun a b =>
  if h : ord.side = "buy" then
    decidable_of_iff (bidBefore a b) (by unfold sideRel; rw [if_pos h])
  else
    decidable_of_iff (askBefore a b) (by unfold sideRel; rw [if_neg h])

/-! Elementary facts about the side orderings. -/

theorem bidBefore_trans {a b c : Order} (h1 : bidBefore a b) (h2 : bidBefore b c) :
    bidBefore a c := by
  unfold bidBefore at h1 h2 ⊢
  rcases h1 with h1 | ⟨h1, h1t⟩ <;> rcases h2 with h2 | ⟨h2, h2t⟩
  · exact Or.inl (lt_trans h2 h1)
  · exact Or.inl (h2 ▸ h1)
  · exact Or.inl (h1 ▸ h2)
  · exact Or.inr ⟨h1.trans h2, le_trans h1t h2t⟩

theorem askBefore_trans {a b c : Order} (h1 : askBefore a b) (h2 : askBefore b c) :
    askBefore a c := by
  unfold askBefore at h1 h2 ⊢
  rcases h1 with h1 | ⟨h1, h1t⟩ <;> rcases h2 with h2 | ⟨h2, h2t⟩
  · exact Or.inl (lt_trans h1 h2)
  · exact Or.inl (h2 ▸ h1)
  · exact Or.inl (h1 ▸ h2)
  · exact Or.inr ⟨h1.trans h2, le_trans h1t h2t⟩

theorem sideRel_trans {ord a b c : Order} (h1 : sideRel ord a b)
    (h2 : sideRel ord b c) : sideRel ord a c := by
  unfold sideRel at h1 h2 ⊢
  by_cases hs : ord.side = "buy"
  · rw [if_pos hs] at h1 h2 ⊢; exact bidBefore_trans h1 h2
  · rw [if_neg hs] at h1 h2 ⊢; exact askBefore_trans h1 h2

/-- The side orderings look only at price and timestamp, never at quantity. -/
theorem bidBefore_qty (a b : Order) (q q' : Nat) :
    bidBefore { a with quantity := q } { b with quantity := q' } ↔ bidBefore a b := by
  unfold bidBefore tsVal; exact Iff.rfl

theorem askBefore_qty (a b : Order) (q q' : Nat) :
    askBefore { a with quantity := q } { b with quantity := q' } ↔ askBefore a b := by
  unfold askBefore tsVal; exact Iff.rfl

/-- An order strictly better than `ord` comes before `ord` on `ord`'s side. -/
theorem sideRel_of_strictlyBetter {ord x : Order} (h : strictlyBetter ord x) :
    sideRel ord x ord := by
  unfold strictlyBetter at h
  unfold sideRel bidBefore askBefore
  by_cases hs : ord.side = "buy"
  · rw [if_pos hs] at h ⊢; exact Or.inl h
  · rw [if_neg hs] at h ⊢; exact Or.inl h

/-- An order at the same price with timestamp at most `ord`'s comes before
`ord` on `ord`'s side. -/
theorem sideRel_of_eq_price {ord x : Order} (hp : x.price = ord.price)
    (ht : tsVal x ≤ tsVal ord) : sideRel ord x ord := by
  unfold sideRel bidBefore askBefore
  by_cases hs : ord.side = "buy"
  · rw [if_pos hs]; exact Or.inr ⟨hp, ht⟩
  · rw [if_neg hs]; exact Or.inr ⟨hp, ht⟩

/-- An order not strictly better than `ord`, and strictly later at equal
price, comes after `ord` on `ord`'s side. -/
theorem sideRel_of_after {ord x : Order} (h1 : ¬ strictlyBetter ord x)
    (h2 : x.price = ord.price → tsVal ord < tsVal x) : sideRel ord ord x := by
  unfold strictlyBetter at h1
  unfold sideRel bidBefore askBefore
  by_cases hs : ord.side = "buy"
  · rw [if_pos hs] at h1 ⊢
    rcases lt_or_eq_of_le (not_lt.mp h1) with h | h
    · exact Or.inl h
    · exact Or.inr ⟨h.symm, le_of_lt (h2 h)⟩
  · rw [if_neg hs] at h1 ⊢
    rcases lt_or_eq_of_le (not_lt.mp h1) with h | h
    · exact Or.inl h
    · exact Or.inr ⟨h, le_of_lt (h2 h.symm)⟩

/-- Whatever sits after a not-better order on `ord`'s side is itself not
better than `ord`. -/
theorem not_strictlyBetter_of_rel {ord b x : Order} (hrel : sideRel ord b x)
    (hb : ¬ strictlyBetter ord b) : ¬ strictlyBetter ord x := by
  unfold strictlyBetter at hb ⊢
  unfold sideRel bidBefore askBefore at hrel
  by_cases hs : ord.side = "buy"
  · rw [if_pos hs] at hb ⊢; rw [if_pos hs] at hrel
    rcases hrel with h | ⟨h, _⟩ <;> omega
  · rw [if_neg hs] at hb ⊢; rw [if_neg hs] at hrel
    rcases hrel with h | ⟨h, _⟩ <;> omega

/-- Whatever sits after a worse-priced order on `ord`'s side does not sit at
`ord`'s price. -/
theorem price_ne_of_rel {ord b x : Order} (hrel : sideRel ord b x)
    (hb : ¬ strictlyBetter ord b) (hbp : b.price ≠ ord.price) :
    x.price ≠ ord.price := by
  unfold strictlyBetter at hb
  unfold sideRel bidBefore askBefore at hrel
  by_cases hs : ord.side = "buy"
  · rw [if_pos hs] at hb; rw [if_pos hs] at hrel
    rcases hrel with h | ⟨h, _⟩ <;> omega
  · rw [if_neg hs] at hb; rw [if_neg hs] at hrel
    rcases hrel with h | ⟨h, _⟩ <;> omega

/-- At equal prices, the side ordering forces ascending timestamps. -/
theorem tsVal_le_of_rel {ord b x : Order} (hrel : sideRel ord b x)
    (hb : b.price = ord.price) (hx : x.price = ord.price) :
    tsVal b ≤ tsVal x := by
  unfold sideRel bidBefore askBefore at hrel
  by_cases hs : ord.side = "buy"
  · rw [if_pos hs] at hrel; rcases hrel with h | ⟨_, h⟩ <;> omega
  · rw [if_neg hs] at hrel; rcases hrel with h | ⟨_, h⟩ <;> omega

/-! ## Insertion lemmas -/

/-- Unconditional split: the same-price scan inserts `ord` at one position
and keeps every existing element in place. -/
theorem insertSamePrice_split (ord : Order) (l : List Order) :
    ∃ l1 l2, l = l1 ++ l2 ∧ insertSamePrice ord l = l1 ++ ord :: l2 := by
  induction l with
  | nil => exact ⟨[], [], rfl, rfl⟩
  | cons b rest ih =>
    by_cases hc : b.price = ord.price ∧
        (b.timestamp = none ∨ ord.timestamp = none ∨
          b.timestamp.getD 0 ≤ ord.timestamp.getD 0)
    · obtain ⟨l1, l2, he, hr⟩ := ih
      exact ⟨b :: l1, l2, by rw [he]; rfl,
        by simp only [insertSamePrice, if_pos hc, hr]; rfl⟩
    · exact ⟨[], b :: rest, rfl, by simp only [insertSamePrice, if_neg hc]; rfl⟩

/-- Unconditional split for `_insert_resting`: exactly one new element, every
existing element kept in place (hence no two existing resting orders are ever
reordered relative to each other). -/
theorem insertResting_split (ord : Order) (l : List Order) :
    ∃ l1 l2, l = l1 ++ l2 ∧ insertResting ord l = l1 ++ ord :: l2 := by
  induction l with
  | nil => exact ⟨[], [], rfl, rfl⟩
  | cons b rest ih =>
    by_cases hb : (if ord.side = "buy" then b.price > ord.price else b.price < ord.price)
    · obtain ⟨l1, l2, he, hr⟩ := ih
      exact ⟨b :: l1, l2, by rw [he]; rfl,
        by simp only [insertResting, if_pos hb, hr]; rfl⟩
    · by_cases hp : b.price = ord.price
      · obtain ⟨l1, l2, he, hr⟩ := insertSamePrice_split ord (b :: rest)
        exact ⟨l1, l2, he, by simp only [insertResting, if_neg hb, if_pos hp, hr]⟩
      · exact ⟨[], b :: rest, rfl,
          by simp only [insertResting, if_neg hb, if_neg hp]; rfl⟩

/-- Sorted split for the same-price scan: under the side invariant, `ord`
lands after every same-price order with timestamp `<=` its own, and before
everything later or worse. -/
theorem insertSamePrice_split_sorted (ord : Order) (l : List Order)
    (hpre : ∀ x ∈ l, ¬ strictlyBetter ord x)
    (hsorted : l.Pairwise (sideRel ord))
    (hts : ∀ x ∈ l, x.timestamp.isSome) (hot : ord.timestamp.isSome) :
    ∃ l1 l2, l = l1 ++ l2 ∧ insertSamePrice ord l = l1 ++ ord :: l2 ∧
      (∀ x ∈ l1, x.price = ord.price ∧ tsVal x ≤ tsVal ord) ∧
      (∀ x ∈ l2, ¬ strictlyBetter ord x ∧
        (x.price = ord.price → tsVal ord < tsVal x)) := by
  induction l with
  | nil => exact ⟨[], [], rfl, rfl, by simp, by simp⟩
  | cons b rest ih =>
    have hbs : b.timestamp.isSome := hts b (List.mem_cons_self _ _)
    have hbn : b.timestamp ≠ none := Option.isSome_iff_ne_none.mp hbs
    have hon : ord.timestamp ≠ none := Option.isSome_iff_ne_none.mp hot
    by_cases hc : b.price = ord.price ∧
        (b.timestamp = none ∨ ord.timestamp = none ∨
          b.timestamp.getD 0 ≤ ord.timestamp.getD 0)
    · obtain ⟨l1, l2, he, hr, h1, h2⟩ := ih
        (fun x hx => hpre x (List.mem_cons_of_mem _ hx))
        (List.Pairwise.of_cons hsorted)
        (fun x hx => hts x (List.mem_cons_of_mem _ hx))
      refine ⟨b :: l1, l2, by rw [he]; rfl,
        by simp only [insertSamePrice, if_pos hc, hr]; rfl, ?_, h2⟩
      intro x hx
      rcases List.mem_cons.mp hx with rfl | hx'
      · refine ⟨hc.1, ?_⟩
        rcases hc.2 with h | h | h
        · exact absurd h hbn
        · exact absurd h hon
        · exact h
      · exact h1 x hx'
    · refine ⟨[], b :: rest, rfl,
        by simp only [insertSamePrice, if_neg hc]; rfl, by simp, ?_⟩
      have hbcond : b.price = ord.price → tsVal ord < tsVal b := by
        intro hp
        by_contra hlt
        exact hc ⟨hp, Or.inr (Or.inr (by unfold tsVal at hlt; omega))⟩
      intro x hx
      rcases List.mem_cons.mp hx with rfl | hx'
      · exact ⟨hpre x (List.mem_cons_self _ _), hbcond⟩
      · refine ⟨hpre x (List.mem_cons_of_mem _ hx'), ?_⟩
        intro hxp
        have hrel : sideRel ord b x := List.rel_of_pairwise_cons hsorted hx'
        by_cases hbp : b.price = ord.price
        · exact lt_of_lt_of_le (hbcond hbp) (tsVal_le_of_rel hrel hbp hxp)
        · exact absurd hxp
            (price_ne_of_rel hrel (hpre b (List.mem_cons_self _ _)) hbp)

/-- Sorted split for `_insert_resting`: the new order lands after everything
strictly better and after every same-price order with timestamp `<=` its own,
and before everything worse or same-price-but-later. -/
theorem insertResting_split_sorted (ord : Order) (l : List Order)
    (hsorted : l.Pairwise (sideRel ord))
    (hts : ∀ x ∈ l, x.timestamp.isSome) (hot : ord.timestamp.isSome) :
    ∃ l1 l2, l = l1 ++ l2 ∧ insertResting ord l = l1 ++ ord :: l2 ∧
      (∀ x ∈ l1, strictlyBetter ord x ∨
        (x.price = ord.price ∧ tsVal x ≤ tsVal ord)) ∧
      (∀ x ∈ l2, ¬ strictlyBetter ord x ∧
        (x.price = ord.price → tsVal ord < tsVal x)) := by
  induction l with
  | nil => exact ⟨[], [], rfl, rfl, by simp, by simp⟩
  | cons b rest ih =>
    by_cases hb : (if ord.side = "buy" then b.price > ord.price else b.price < ord.price)
    · obtain ⟨l1, l2, he, hr, h1, h2⟩ := ih (List.Pairwise.of_cons hsorted)
        (fun x hx => hts x (List.mem_cons_of_mem _ hx))
      refine ⟨b :: l1, l2, by rw [he]; rfl,
        by simp only [insertResting, if_pos hb, hr]; rfl, ?_, h2⟩
      intro x hx
      rcases List.mem_cons.mp hx with rfl | hx'
      · exact Or.inl hb
      · exact h1 x hx'
    · have hnb : ¬ strictlyBetter ord b := hb
      by_cases hp : b.price = ord.price
      · have hpre : ∀ x ∈ b :: rest, ¬ strictlyBetter ord x := by
          intro x hx
          rcases List.mem_cons.mp hx with rfl | hx'
          · exact hnb
          · exact not_strictlyBetter_of_rel (List.rel_of_pairwise_cons hsorted hx') hnb
        obtain ⟨l1, l2, he, hr, h1, h2⟩ :=
          insertSamePrice_split_sorted ord (b :: rest) hpre hsorted hts hot
        exact ⟨l1, l2, he, by simp only [insertResting, if_neg hb, if_pos hp, hr],
          fun x hx => Or.inr (h1 x hx), h2⟩
      · refine ⟨[], b :: rest, rfl,
          by simp only [insertResting, if_neg hb, if_neg hp]; rfl, by simp, ?_⟩
        intro x hx
        rcases List.mem_cons.mp hx with rfl | hx'
        · exact ⟨hnb, fun h => absurd h hp⟩
        · have hrel : sideRel ord b x := List.rel_of_pairwise_cons hsorted hx'
          exact ⟨not_strictlyBetter_of_rel hrel hnb,
            fun h => absurd h (price_ne_of_rel hrel hnb hp)⟩

/-- Resting insertion preserves the side's sortedness. -/
theorem insertResting_pairwise (ord : Order) (l : List Order)
    (hsorted : l.Pairwise (sideRel ord))
    (hts : ∀ x ∈ l, x.timestamp.isSome) (hot : ord.timestamp.isSome) :
    (insertResting ord l).Pairwise (sideRel ord) := by
  obtain ⟨l1, l2, he, hr, h1, h2⟩ := insertResting_split_sorted ord l hsorted hts hot
  rw [hr]
  rw [he, List.pairwise_append] at hsorted
  obtain ⟨p1, p2, hcross⟩ := hsorted
  rw [List.pairwise_append]
  refine ⟨p1, ?_, ?_⟩
  · rw [List.pairwise_cons]
    exact ⟨fun x hx => sideRel_of_after (h2 x hx).1 (h2 x hx).2, p2⟩
  · intro a ha b hb
    rcases List.mem_cons.mp hb with rfl | hb'
    · rcases h1 a ha with h | ⟨hp, ht⟩
      · exact sideRel_of_strictlyBetter h
      · exact sideRel_of_eq_price hp ht
    · exact hcross a ha b hb'

/-- The matching loop preserves the side invariant of the opposite side, for
any ordering that ignores quantities. -/
theorem loopGen_sideInv (rel : Order → Order → Prop)
    (hrel : ∀ a b q, rel a b → rel { a with quantity := q } b)
    (stop : Order → Order → Bool) (clock : Nat → Nat)
    (k : Nat) (ord : Order) (opp : List Order)
    (hinv : SideInv rel opp) :
    SideInv rel (loopGen stop clock k ord opp).opp := by
  induction opp generalizing k ord with
  | nil => simpa [loopGen] using hinv
  | cons best rest ih =>
    obtain ⟨hp, hq, ht⟩ := hinv
    have hinvRest : SideInv rel rest :=
      ⟨List.Pairwise.of_cons hp,
        fun o ho => hq o (List.mem_cons_of_mem _ ho),
        fun o ho => ht o (List.mem_cons_of_mem _ ho)⟩
    simp only [loopGen]
    by_cases h0 : ord.quantity = 0
    · rw [if_pos h0]; exact ⟨hp, hq, ht⟩
    · rw [if_neg h0]
      by_cases hst : stop ord best
      · simp only [hst, if_true]; exact ⟨hp, hq, ht⟩
      · simp only [hst, Bool.false_eq_true, if_false]
        by_cases hb2 : best.quantity - min ord.quantity best.quantity = 0
        · rw [if_pos hb2]
          exact ih (k + 1) _ hinvRest
        · rw [if_neg hb2]
          refine ⟨?_, ?_, ?_⟩
          · rw [List.pairwise_cons]
            exact ⟨fun x hx =>
              hrel best x _ (List.rel_of_pairwise_cons hp hx),
              List.Pairwise.of_cons hp⟩
          · intro o ho
            rcases List.mem_cons.mp ho with rfl | ho'
            · exact Nat.pos_of_ne_zero hb2
            · exact hq o (List.mem_cons_of_mem _ ho')
          · intro o ho
            rcases List.mem_cons.mp ho with rfl | ho'
            · exact ht best (List.mem_cons_self _ _)
            · exact ht o (List.mem_cons_of_mem _ ho')

theorem bidBefore_qty_left (a b : Order) (q : Nat) (h : bidBefore a b) :
    bidBefore { a with quantity := q } b := h

theorem askBefore_qty_left (a b : Order) (q : Nat) (h : askBefore a b) :
    askBefore { a with quantity := q } b := h

/-! ## Fill-quantity bookkeeping -/

/-- Total `filled_qty` reported against order id `i`. -/
def sumFor (i : String) (rs : List Report) : Nat :=
  ((rs.filter (fun r => r.orderId = i)).map Report.filledQty).sum

/-- Total resting quantity carried by order id `i` in a side. -/
def qtyFor (i : String) (l : List Order) : Nat :=
  ((l.filter (fun o => o.id = i)).map Order.quantity).sum

theorem sumFor_nil (i : String) : sumFor i [] = 0 := rfl

theorem sumFor_cons (i : String) (r : Report) (rs : List Report) :
    sumFor i (r :: rs) =
      (if r.orderId = i then r.filledQty else 0) + sumFor i rs := by
  unfold sumFor
  by_cases h : r.orderId = i
  · simp [List.filter_cons, h]
  · simp [List.filter_cons, h]

theorem qtyFor_cons (i : String) (o : Order) (l : List Order) :
    qtyFor i (o :: l) =
      (if o.id = i then o.quantity else 0) + qtyFor i l := by
  unfold qtyFor
  by_cases h : o.id = i
  · simp [List.filter_cons, h]
  · simp [List.filter_cons, h]

theorem sumFor_eq_zero {i : String} {rs : List Report}
    (h : ∀ r ∈ rs, r.orderId ≠ i) : sumFor i rs = 0 := by
  induction rs with
  | nil => rfl
  | cons r rs ih =>
    rw [sumFor_cons, if_neg (h r (List.mem_cons_self _ _))]
    rw [ih fun r hr => h r (List.mem_cons_of_mem _ hr)]

theorem qtyFor_eq_zero {i : String} {l : List Order}
    (h : i ∉ l.map Order.id) : qtyFor i l = 0 := by
  induction l with
  | nil => rfl
  | cons o l ih =>
    rw [qtyFor_cons, if_neg (fun he => h (by simp [he]))]
    rw [ih fun hm => h (by simp at hm ⊢; exact Or.inr hm)]

theorem qtyFor_of_nodup {l : List Order} (hnod : (l.map Order.id).Nodup)
    {b : Order} (hb : b ∈ l) : qtyFor b.id l = b.quantity := by
  induction l with
  | nil => simp at hb
  | cons o l ih =>
    rw [List.map_cons, List.nodup_cons] at hnod
    rw [qtyFor_cons]
    rcases List.mem_cons.mp hb with rfl | hb'
    · rw [if_pos rfl, qtyFor_eq_zero hnod.1]
      omega
    · have hne : o.id ≠ b.id := by
        intro he
        exact hnod.1 (he ▸ List.mem_map_of_mem Order.id hb')
      rw [if_neg hne, ih hnod.2 hb']
      omega

/-- Contribution of one aggressor/resting report pair to the aggressor sum. -/
theorem sumFor_pair_agg (ord best : Order) (f : Nat) (p : Int) (t : Nat)
    (rs : List Report) (hne : best.id ≠ ord.id) :
    sumFor ord.id (mkReport ord f p t :: mkReport best f p t :: rs) =
      f + sumFor ord.id rs := by
  rw [sumFor_cons, sumFor_cons]
  simp [mkReport, hne]

/-- Contribution of one aggressor/resting report pair to the resting sum. -/
theorem sumFor_pair_rest (ord best : Order) (f : Nat) (p : Int) (t : Nat)
    (rs : List Report) (hne : ord.id ≠ best.id) :
    sumFor best.id (mkReport ord f p t :: mkReport best f p t :: rs) =
      f + sumFor best.id rs := by
  rw [sumFor_cons, sumFor_cons]
  simp [mkReport, hne]

/-- One report pair contributes nothing to any other order's sum. -/
theorem sumFor_pair_other (ord best : Order) (i : String) (f : Nat) (p : Int)
    (t : Nat) (rs : List Report) (h1 : ord.id ≠ i) (h2 : best.id ≠ i) :
    sumFor i (mkReport ord f p t :: mkReport best f p t :: rs) =
      sumFor i rs := by
  rw [sumFor_cons, sumFor_cons]
  simp [mkReport, h1, h2]

/-- Aggressor-side quantity conservation: the reported fills for the incoming
order plus its remaining quantity equal its original quantity. -/
theorem loopGen_agg_conserve (stop : Order → Order → Bool) (clock : Nat → Nat)
    (k : Nat) (ord : Order) (opp : List Order)
    (hid : ord.id ∉ opp.map Order.id) :
    sumFor ord.id (loopGen stop clock k ord opp).reports +
      (loopGen stop clock k ord opp).order.quantity = ord.quantity := by
  induction opp generalizing k ord with
  | nil => simp [loopGen, sumFor_nil]
  | cons best rest ih =>
    have hbid : best.id ≠ ord.id := by
      intro he; exact hid (by simp [he.symm])
    have hidr : ord.id ∉ rest.map Order.id := by
      intro hm; exact hid (List.mem_cons_of_mem _ hm)
    simp only [loopGen]
    by_cases h0 : ord.quantity = 0
    · rw [if_pos h0]; simp [sumFor_nil]
    · rw [if_neg h0]
      by_cases hst : stop ord best
      · simp only [hst, if_true]; simp [sumFor_nil]
      · simp only [hst, Bool.false_eq_true, if_false]
        have hle : min ord.quantity best.quantity ≤ ord.quantity :=
          Nat.min_le_left _ _
        by_cases hb2 : best.quantity - min ord.quantity best.quantity = 0
        · rw [if_pos hb2]
          have hrec := ih (k + 1)
            { ord with quantity := ord.quantity - min ord.quantity best.quantity } hidr
          rw [sumFor_pair_agg _ _ _ _ _ _ hbid]
          dsimp only at hrec ⊢
          omega
        · rw [if_neg hb2]
          rw [sumFor_pair_agg _ _ _ _ _ _ hbid, sumFor_nil]
          dsimp only
          omega

/-- Resting-side quantity conservation: for each resting order, the fills
reported against it plus its remaining resting quantity equal its original
quantity (order ids assumed distinct so that reports can be attributed). -/
theorem loopGen_rest_conserve (stop : Order → Order → Bool) (clock : Nat → Nat)
    (k : Nat) (ord : Order) (opp : List Order)
    (hnod : (opp.map Order.id).Nodup) (hid : ord.id ∉ opp.map Order.id) :
    ∀ b ∈ opp, sumFor b.id (loopGen stop clock k ord opp).reports +
      qtyFor b.id (loopGen stop clock k ord opp).opp = b.quantity := by
  induction opp generalizing k ord with
  | nil => intro b hb; simp at hb
  | cons best rest ih =>
    intro b hb
    rw [List.map_cons, List.nodup_cons] at hnod
    obtain ⟨hbest, hnodr⟩ := hnod
    have hidr : ord.id ∉ rest.map Order.id := fun hm => hid (List.mem_cons_of_mem _ hm)
    have hbo : ord.id ≠ best.id := fun he => hid (by simp [he])
    simp only [loopGen]
    by_cases h0 : ord.quantity = 0
    · rw [if_pos h0]
      rw [sumFor_nil, qtyFor_of_nodup (by rw [List.map_cons, List.nodup_cons]; exact ⟨hbest, hnodr⟩) hb]
      omega
    · rw [if_neg h0]
      by_cases hst : stop ord best
      · simp only [hst, if_true]
        rw [sumFor_nil, qtyFor_of_nodup (by rw [List.map_cons, List.nodup_cons]; exact ⟨hbest, hnodr⟩) hb]
        omega
      · simp only [hst, Bool.false_eq_true, if_false]
        have hfle : min ord.quantity best.quantity ≤ best.quantity :=
          Nat.min_le_right _ _
        by_cases hb2 : best.quantity - min ord.quantity best.quantity = 0
        · rw [if_pos hb2]
          dsimp only
          rcases List.mem_cons.mp hb with rfl | hbr
          · rw [sumFor_pair_rest _ _ _ _ _ _ hbo]
            have hzrep : sumFor b.id (loopGen stop clock (k + 1)
                { ord with quantity := ord.quantity - min ord.quantity b.quantity }
                rest).reports = 0 := by
              apply sumFor_eq_zero
              intro r hr
              rcases loopGen_reports_ids stop clock (k + 1) _ rest r hr with h | h
              · dsimp only at h
                rw [h]; exact hbo
              · intro he; rw [he] at h; exact hbest h
            have hzq : qtyFor b.id (loopGen stop clock (k + 1)
                { ord with quantity := ord.quantity - min ord.quantity b.quantity }
                rest).opp = 0 := by
              apply qtyFor_eq_zero
              intro hm
              rw [List.mem_map] at hm
              obtain ⟨o, ho, hoe⟩ := hm
              obtain ⟨o0, ho0, hoid, _⟩ :=
                loopGen_opp_mem stop clock (k + 1) _ rest o ho
              exact hbest (by rw [← hoe, hoid]; exact List.mem_map_of_mem Order.id ho0)
            rw [hzrep, hzq]
            omega
          · have hbb : best.id ≠ b.id := fun he =>
              hbest (he ▸ List.mem_map_of_mem Order.id hbr)
            have hob : ord.id ≠ b.id := fun he =>
              hid (he ▸ List.mem_cons_of_mem _ (List.mem_map_of_mem Order.id hbr))
            rw [sumFor_pair_other _ _ _ _ _ _ _ hob hbb]
            exact ih (k + 1)
              { ord with quantity := ord.quantity - min ord.quantity best.quantity }
              hnodr hidr b hbr
        · rw [if_neg hb2]
          dsimp only
          rcases List.mem_cons.mp hb with rfl | hbr
          · rw [sumFor_pair_rest _ _ _ _ _ _ hbo, sumFor_nil, qtyFor_cons]
            rw [if_pos rfl, qtyFor_eq_zero hbest]
            dsimp only
            omega
          · have hbb : best.id ≠ b.id := fun he =>
              hbest (he ▸ List.mem_map_of_mem Order.id hbr)
            have hob : ord.id ≠ b.id := fun he =>
              hid (he ▸ List.mem_cons_of_mem _ (List.mem_map_of_mem Order.id hbr))
            rw [sumFor_pair_other _ _ _ _ _ _ _ hob hbb, sumFor_nil, qtyFor_cons]
            rw [if_neg hbb, qtyFor_of_nodup hnodr hbr]
            omega

/-! ## Status, pairing and consumption-shape predicates -/

/-- Status correctness for the aggressor's (even-position) reports: each is
`"filled"` exactly when the aggressor's remaining quantity reaches 0 with that
fill, threading the remaining quantity through the pairs. -/
def aggStatusOK : Nat → List Report → Prop
  | _, [] => True
  | _, [_] => True
  | q, r1 :: _ :: rs =>
    (r1.status = "filled" ↔ q - r1.filledQty = 0) ∧
      aggStatusOK (q - r1.filledQty) rs

theorem status_iff (f q : Nat) (hle : f ≤ q) :
    ((if f = q then "filled" else "partial_fill") = "filled" ↔ q - f = 0) := by
  by_cases h : f = q
  · simp [h]
  · rw [if_neg h]
    constructor
    · intro hs; exact absurd hs (by decide)
    · intro hz; exact absurd (by omega : f = q) h

/-- The matching loop emits status `filled` for the incoming order exactly
when its remaining quantity becomes 0 with the reported fill. -/
theorem loopGen_aggStatus (stop : Order → Order → Bool) (clock : Nat → Nat)
    (k : Nat) (ord : Order) (opp : List Order) :
    aggStatusOK ord.quantity (loopGen stop clock k ord opp).reports := by
  induction opp generalizing k ord with
  | nil => simp [loopGen, aggStatusOK]
  | cons best rest ih =>
    simp only [loopGen]
    by_cases h0 : ord.quantity = 0
    · rw [if_pos h0]; exact trivial
    · rw [if_neg h0]
      by_cases hst : stop ord best
      · simp only [hst, if_true]; exact trivial
      · simp only [hst, Bool.false_eq_true, if_false]
        have hle : min ord.quantity best.quantity ≤ ord.quantity :=
          Nat.min_le_left _ _
        by_cases hb2 : best.quantity - min ord.quantity best.quantity = 0
        · rw [if_pos hb2]
          dsimp only
          refine ⟨?_, ?_⟩
          · simpa [mkReport] using
              status_iff (min ord.quantity best.quantity) ord.quantity hle
          · simpa using ih (k + 1)
              { ord with quantity := ord.quantity - min ord.quantity best.quantity }
        · rw [if_neg hb2]
          dsimp only
          refine ⟨?_, trivial⟩
          simpa [mkReport] using
            status_iff (min ord.quantity best.quantity) ord.quantity hle

/-- Every report attributed to a resting order has status `filled` exactly
when that resting order's remaining quantity becomes 0, and never reports
more than the resting order's quantity (order ids assumed distinct). -/
theorem loopGen_restStatus (stop : Order → Order → Bool) (clock : Nat → Nat)
    (k : Nat) (ord : Order) (opp : List Order)
    (hnod : (opp.map Order.id).Nodup) (hid : ord.id ∉ opp.map Order.id) :
    ∀ b ∈ opp, ∀ r ∈ (loopGen stop clock k ord opp).reports, r.orderId = b.id →
      (r.status = "filled" ↔ b.quantity - r.filledQty = 0) ∧
        r.filledQty ≤ b.quantity := by
  induction opp generalizing k ord with
  | nil => intro b hb; simp at hb
  | cons best rest ih =>
    intro b hb r hr hrid
    rw [List.map_cons, List.nodup_cons] at hnod
    obtain ⟨hbest, hnodr⟩ := hnod
    have hidr : ord.id ∉ rest.map Order.id := fun hm => hid (List.mem_cons_of_mem _ hm)
    have hbo : ord.id ≠ best.id := fun he => hid (by simp [he])
    simp only [loopGen] at hr
    by_cases h0 : ord.quantity = 0
    · rw [if_pos h0] at hr; simp at hr
    · rw [if_neg h0] at hr
      by_cases hst : stop ord best
      · simp only [hst, if_true] at hr; simp at hr
      · simp only [hst, Bool.false_eq_true, if_false] at hr
        have hfle : min ord.quantity best.quantity ≤ best.quantity :=
          Nat.min_le_right _ _
        by_cases hb2 : best.quantity - min ord.quantity best.quantity = 0
        · rw [if_pos hb2] at hr
          dsimp only at hr
          rcases List.mem_cons.mp hb with rfl | hbr
          · rcases List.mem_cons.mp hr with rfl | hr'
            · exact absurd hrid (by simp [mkReport]; exact hbo)
            · rcases List.mem_cons.mp hr' with rfl | hr''
              · refine ⟨?_, hfle⟩
                simpa [mkReport] using
                  status_iff (min ord.quantity b.quantity) b.quantity hfle
              · exfalso
                rcases loopGen_reports_ids stop clock (k + 1) _ rest r hr'' with h | h
                · dsimp only at h; rw [hrid] at h; exact hbo h.symm
                · rw [hrid] at h; exact hbest h
          · have hbb : best.id ≠ b.id := fun he =>
              hbest (he ▸ List.mem_map_of_mem Order.id hbr)
            have hob : ord.id ≠ b.id := fun he =>
              hid (he ▸ List.mem_cons_of_mem _ (List.mem_map_of_mem Order.id hbr))
            rcases List.mem_cons.mp hr with rfl | hr'
            · exact absurd hrid (by simp [mkReport]; exact hob)
            · rcases List.mem_cons.mp hr' with rfl | hr''
              · exact absurd hrid (by simp [mkReport]; exact hbb)
              · exact ih (k + 1)
                  { ord with quantity := ord.quantity - min ord.quantity best.quantity }
                  hnodr hidr b hbr r hr'' hrid
        · rw [if_neg hb2] at hr
          dsimp only at hr
          rcases List.mem_cons.mp hb with rfl | hbr
          · rcases List.mem_cons.mp hr with rfl | hr'
            · exact absurd hrid (by simp [mkReport]; exact hbo)
            · rcases List.mem_cons.mp hr' with rfl | hr''
              · refine ⟨?_, hfle⟩
                simpa [mkReport] using
                  status_iff (min ord.quantity b.quantity) b.quantity hfle
              · simp at hr''
          · have hbb : best.id ≠ b.id := fun he =>
              hbest (he ▸ List.mem_map_of_mem Order.id hbr)
            have hob : ord.id ≠ b.id := fun he =>
              hid (he ▸ List.mem_cons_of_mem _ (List.mem_map_of_mem Order.id hbr))
            rcases List.mem_cons.mp hr with rfl | hr'
            · exact absurd hrid (by simp [mkReport]; exact hob)
            · rcases List.mem_cons.mp hr' with rfl | hr''
              · exact absurd hrid (by simp [mkReport]; exact hbb)
              · simp at hr''

/-- Pairing structure of a report list: reports come in aggressor/resting
pairs with equal fill quantity, shared timestamp and equal trade price, the
first of each pair naming the aggressor and the second naming a resting order
of the opposite side and carrying that resting order's price. -/
def pairedOK (aggId : String) (opp : List Order) : List Report → Prop
  | [] => True
  | [_] => False
  | a :: b :: rs =>
    a.orderId = aggId ∧ a.filledQty = b.filledQty ∧ a.timestamp = b.timestamp ∧
      a.price = b.price ∧ (∃ o ∈ opp, b.orderId = o.id ∧ b.price = o.price) ∧
      pairedOK aggId opp rs

theorem pairedOK_mono (aggId : String) (best : Order) (rest : List Order) :
    ∀ rs, pairedOK aggId rest rs → pairedOK aggId (best :: rest) rs
  | [] => fun h => h
  | [r] => fun h => h
  | a :: b :: rs => fun h => by
    obtain ⟨h1, h2, h3, h4, ⟨o, ho, ho1, ho2⟩, h6⟩ := h
    exact ⟨h1, h2, h3, h4, ⟨o, List.mem_cons_of_mem _ ho, ho1, ho2⟩,
      pairedOK_mono aggId best rest rs h6⟩

/-- The matching loop emits exactly aggressor/resting report pairs. -/
theorem loopGen_paired (stop : Order → Order → Bool) (clock : Nat → Nat)
    (k : Nat) (ord : Order) (opp : List Order) :
    pairedOK ord.id opp (loopGen stop clock k ord opp).reports := by
  induction opp generalizing k ord with
  | nil => exact trivial
  | cons best rest ih =>
    simp only [loopGen]
    by_cases h0 : ord.quantity = 0
    · rw [if_pos h0]; exact trivial
    · rw [if_neg h0]
      by_cases hst : stop ord best
      · simp only [hst, if_true]; exact trivial
      · simp only [hst, Bool.false_eq_true, if_false]
        by_cases hb2 : best.quantity - min ord.quantity best.quantity = 0
        · rw [if_pos hb2]
          dsimp only
          exact ⟨rfl, rfl, rfl, rfl, ⟨best, List.mem_cons_self _ _, rfl, rfl⟩,
            pairedOK_mono _ _ _ _ (ih (k + 1)
              { ord with quantity := ord.quantity - min ord.quantity best.quantity })⟩
        · rw [if_neg hb2]
          dsimp only
          exact ⟨rfl, rfl, rfl, rfl, ⟨best, List.mem_cons_self _ _, rfl, rfl⟩, trivial⟩

/-- The final opposite side is the original list with a prefix consumed from
the front, with possibly the first surviving order partially reduced. -/
def consumedFromFront (opp l : List Order) : Prop :=
  ∃ n, l = opp.drop n ∨ ∃ b t q, opp.drop n = b :: t ∧
    l = { b with quantity := q } :: t ∧ 0 < q ∧ q < b.quantity

theorem loopGen_consumedFromFront (stop : Order → Order → Bool)
    (clock : Nat → Nat) (k : Nat) (ord : Order) (opp : List Order) :
    consumedFromFront opp (loopGen stop clock k ord opp).opp := by
  induction opp generalizing k ord with
  | nil => exact ⟨0, Or.inl rfl⟩
  | cons best rest ih =>
    simp only [loopGen]
    by_cases h0 : ord.quantity = 0
    · rw [if_pos h0]; exact ⟨0, Or.inl rfl⟩
    · rw [if_neg h0]
      by_cases hst : stop ord best
      · simp only [hst, if_true]; exact ⟨0, Or.inl rfl⟩
      · simp only [hst, Bool.false_eq_true, if_false]
        by_cases hb2 : best.quantity - min ord.quantity best.quantity = 0
        · rw [if_pos hb2]
          dsimp only
          obtain ⟨n, hn⟩ := ih (k + 1)
            { ord with quantity := ord.quantity - min ord.quantity best.quantity }
          exact ⟨n + 1, hn⟩
        · rw [if_neg hb2]
          dsimp only
          refine ⟨0, Or.inr ⟨best, rest,
            best.quantity - min ord.quantity best.quantity, rfl, rfl, ?_, ?_⟩⟩
          · omega
          · have := Nat.min_le_right ord.quantity best.quantity
            omega

/-- The market loop runs until the incoming quantity is exhausted or the
opposite side is empty. -/
theorem executeMarket_exhausts (clock : Nat → Nat) (k : Nat) (ord : Order)
    (opp : List Order) :
    (executeMarket clock k ord opp).order.quantity = 0 ∨
      (executeMarket clock k ord opp).opp = [] := by
  induction opp generalizing k ord with
  | nil => exact Or.inr rfl
  | cons best rest ih =>
    simp only [executeMarket]
    by_cases h0 : ord.quantity = 0
    · rw [if_pos h0]; exact Or.inl h0
    · rw [if_neg h0]
      by_cases hb2 : best.quantity - min ord.quantity best.quantity = 0
      · rw [if_pos hb2]
        dsimp only
        exact ih (k + 1) _
      · rw [if_neg hb2]
        dsimp only
        left
        omega

/-! ## Price-gate lemmas for the limit loop -/

/-- A buy limit order whose price is below the best ask matches nothing. -/
theorem matchLimit_stops_buy (clock : Nat → Nat) (k : Nat) (ord best : Order)
    (rest : List Order) (hs : ord.side = "buy") (hp : best.price > ord.price) :
    matchLimit clock k ord (best :: rest) = ⟨[], ord, best :: rest, k⟩ := by
  simp only [matchLimit]
  by_cases h0 : ord.quantity = 0
  · rw [if_pos h0]
  · rw [if_neg h0, if_pos ⟨hs, hp⟩]

/-- A sell limit order whose price is above the best bid matches nothing. -/
theorem matchLimit_stops_sell (clock : Nat → Nat) (k : Nat) (ord best : Order)
    (rest : List Order) (hs : ord.side = "sell") (hp : best.price < ord.price) :
    matchLimit clock k ord (best :: rest) = ⟨[], ord, best :: rest, k⟩ := by
  simp only [matchLimit]
  by_cases h0 : ord.quantity = 0
  · rw [if_pos h0]
  · have hnb : ¬ (ord.side = "buy" ∧ best.price > ord.price) := by
      intro h
      rw [hs] at h
      exact absurd h.1 (by decide)
    rw [if_neg h0, if_neg hnb, if_pos ⟨hs, hp⟩]

/-- Every report emitted by the limit loop satisfies the price gate. -/
theorem matchLimit_report_price (clock : Nat → Nat) (k : Nat) (ord : Order)
    (opp : List Order) :
    ∀ r ∈ (matchLimit clock k ord opp).reports,
      (ord.side = "buy" → r.price ≤ ord.price) ∧
      (ord.side = "sell" → ord.price ≤ r.price) := by
  induction opp generalizing k ord with
  | nil => intro r hr; simp [matchLimit] at hr
  | cons best rest ih =>
    intro r hr
    simp only [matchLimit] at hr
    by_cases h0 : ord.quantity = 0
    · rw [if_pos h0] at hr; simp at hr
    · rw [if_neg h0] at hr
      by_cases hg1 : ord.side = "buy" ∧ best.price > ord.price
      · rw [if_pos hg1] at hr; simp at hr
      · rw [if_neg hg1] at hr
        by_cases hg2 : ord.side = "sell" ∧ best.price < ord.price
        · rw [if_pos hg2] at hr; simp at hr
        · rw [if_neg hg2] at hr
          have hbuy : ord.side = "buy" → best.price ≤ ord.price := fun hs =>
            not_lt.mp fun hlt => hg1 ⟨hs, hlt⟩
          have hsell : ord.side = "sell" → ord.price ≤ best.price := fun hs =>
            not_lt.mp fun hlt => hg2 ⟨hs, hlt⟩
          by_cases hb2 : best.quantity - min ord.quantity best.quantity = 0
          · rw [if_pos hb2] at hr
            dsimp only at hr
            rcases List.mem_cons.mp hr with rfl | hr'
            · exact ⟨hbuy, hsell⟩
            · rcases List.mem_cons.mp hr' with rfl | hr''
              · exact ⟨hbuy, hsell⟩
              · exact ih (k + 1)
                  { ord with quantity := ord.quantity - min ord.quantity best.quantity }
                  r hr''
          · rw [if_neg hb2] at hr
            dsimp only at hr
            rcases List.mem_cons.mp hr with rfl | hr'
            · exact ⟨hbuy, hsell⟩
            · rcases List.mem_cons.mp hr' with rfl | hr''
              · exact ⟨hbuy, hsell⟩
              · simp at hr''

/-! ## Clock (in)dependence -/

/-- Erase the timestamp of a report (used to compare reports produced under
different ambient clocks). -/
def stripTs (r : Report) : Report := { r with timestamp := 0 }

/-- Under two different clocks the matching loop produces the same reports up
to timestamps, the same final incoming order and the same final side. -/
theorem loopGen_clock (stop : Order → Order → Bool) (c1 c2 : Nat → Nat)
    (k1 k2 : Nat) (ord : Order) (opp : List Order) :
    (loopGen stop c1 k1 ord opp).reports.map stripTs =
        (loopGen stop c2 k2 ord opp).reports.map stripTs ∧
      (loopGen stop c1 k1 ord opp).order = (loopGen stop c2 k2 ord opp).order ∧
      (loopGen stop c1 k1 ord opp).opp = (loopGen stop c2 k2 ord opp).opp := by
  induction opp generalizing k1 k2 ord with
  | nil => exact ⟨rfl, rfl, rfl⟩
  | cons best rest ih =>
    simp only [loopGen]
    by_cases h0 : ord.quantity = 0
    · rw [if_pos h0, if_pos h0]; exact ⟨rfl, rfl, rfl⟩
    · rw [if_neg h0, if_neg h0]
      by_cases hst : stop ord best
      · simp only [hst, if_true]
        refine ⟨?_, ?_, ?_⟩ <;> first | rfl | trivial
      · simp only [hst, Bool.false_eq_true, if_false]
        by_cases hb2 : best.quantity - min ord.quantity best.quantity = 0
        · rw [if_pos hb2, if_pos hb2]
          dsimp only
          obtain ⟨hr, ho, hl⟩ := ih (k1 + 1) (k2 + 1)
            { ord with quantity := ord.quantity - min ord.quantity best.quantity }
          refine ⟨?_, ho, hl⟩
          simp only [List.map_cons, hr]
          rfl
        · rw [if_neg hb2, if_neg hb2]
          exact ⟨rfl, rfl, rfl⟩

/-- Under two different clocks the limit path produces the same reports up to
timestamps and the same resulting book. -/
theorem limitFlow_clock (c1 c2 : Nat → Nat) (k1 k2 : Nat) (book : Book)
    (ord : Order) :
    (limitFlow c1 k1 book ord).1.map stripTs =
        (limitFlow c2 k2 book ord).1.map stripTs ∧
      (limitFlow c1 k1 book ord).2 = (limitFlow c2 k2 book ord).2 := by
  unfold limitFlow
  by_cases hs : ord.side = "buy"
  · rw [if_pos hs, if_pos hs,
      matchLimit_eq_loopGen c1 k1 ord book.asks,
      matchLimit_eq_loopGen c2 k2 ord book.asks]
    obtain ⟨hr, ho, hl⟩ := loopGen_clock limitStop c1 c2 k1 k2 ord book.asks
    dsimp only
    rw [ho, hl]
    by_cases hq : (loopGen limitStop c2 k2 ord book.asks).order.quantity > 0
    · rw [if_pos hq, if_pos hq]; exact ⟨hr, rfl⟩
    · rw [if_neg hq, if_neg hq]; exact ⟨hr, rfl⟩
  · rw [if_neg hs, if_neg hs,
      matchLimit_eq_loopGen c1 k1 ord book.bids,
      matchLimit_eq_loopGen c2 k2 ord book.bids]
    obtain ⟨hr, ho, hl⟩ := loopGen_clock limitStop c1 c2 k1 k2 ord book.bids
    dsimp only
    rw [ho, hl]
    by_cases hq : (loopGen limitStop c2 k2 ord book.bids).order.quantity > 0
    · rw [if_pos hq, if_pos hq]; exact ⟨hr, rfl⟩
    · rw [if_neg hq, if_neg hq]; exact ⟨hr, rfl⟩

/-! ## Book-invariant preservation through submit -/

theorem sideRel_eq_bid {ord : Order} (h : ord.side = "buy") :
    sideRel ord = bidBefore := by
  unfold sideRel; rw [if_pos h]

theorem sideRel_eq_ask {ord : Order} (h : ¬ ord.side = "buy") :
    sideRel ord = askBefore := by
  unfold sideRel; rw [if_neg h]

/-- Resting insertion preserves the full side invariant of the target side. -/
theorem insertResting_sideInv (ord : Order) (l : List Order)
    (rel : Order → Order → Prop) (hrel : sideRel ord = rel)
    (hinv : SideInv rel l) (hq : 0 < ord.quantity)
    (hot : ord.timestamp.isSome) :
    SideInv rel (insertResting ord l) := by
  obtain ⟨hp, hqs, hts⟩ := hinv
  refine ⟨?_, ?_, ?_⟩
  · have := insertResting_pairwise ord l (by rw [hrel]; exact hp) hts hot
    rwa [hrel] at this
  · intro o ho
    obtain ⟨l1, l2, he, hr2⟩ := insertResting_split ord l
    rw [hr2] at ho
    rcases List.mem_append.mp ho with h | h
    · exact hqs o (he ▸ List.mem_append.mpr (Or.inl h))
    · rcases List.mem_cons.mp h with rfl | h'
      · exact hq
      · exact hqs o (he ▸ List.mem_append.mpr (Or.inr h'))
  · intro o ho
    obtain ⟨l1, l2, he, hr2⟩ := insertResting_split ord l
    rw [hr2] at ho
    rcases List.mem_append.mp ho with h | h
    · exact hts o (he ▸ List.mem_append.mpr (Or.inl h))
    · rcases List.mem_cons.mp h with rfl | h'
      · exact hot
      · exact hts o (he ▸ List.mem_append.mpr (Or.inr h'))

/-- The limit path preserves the book invariant. -/
theorem limitFlow_inv (clock : Nat → Nat) (k : Nat) (book : Book) (ord : Order)
    (hinv : BookInv book) (hot : ord.timestamp.isSome) :
    BookInv (limitFlow clock k book ord).2 := by
  obtain ⟨hbid, hask⟩ := hinv
  unfold limitFlow
  by_cases hs : ord.side = "buy"
  · rw [if_pos hs]
    have haskInv : SideInv askBefore (matchLimit clock k ord book.asks).opp := by
      rw [matchLimit_eq_loopGen]
      exact loopGen_sideInv askBefore askBefore_qty_left _ clock k ord book.asks hask
    obtain ⟨q, hqe, _⟩ : ∃ q, (matchLimit clock k ord book.asks).order =
        { ord with quantity := q } ∧ q ≤ ord.quantity := by
      rw [matchLimit_eq_loopGen]
      exact loopGen_order limitStop clock k ord book.asks
    dsimp only
    by_cases hq0 : (matchLimit clock k ord book.asks).order.quantity > 0
    · rw [if_pos hq0]
      refine ⟨?_, haskInv⟩
      refine insertResting_sideInv _ _ bidBefore ?_ hbid hq0 ?_
      · exact sideRel_eq_bid (by rw [hqe]; exact hs)
      · rw [hqe]; exact hot
    · rw [if_neg hq0]
      exact ⟨hbid, haskInv⟩
  · rw [if_neg hs]
    have hbidInv : SideInv bidBefore (matchLimit clock k ord book.bids).opp := by
      rw [matchLimit_eq_loopGen]
      exact loopGen_sideInv bidBefore bidBefore_qty_left _ clock k ord book.bids hbid
    obtain ⟨q, hqe, _⟩ : ∃ q, (matchLimit clock k ord book.bids).order =
        { ord with quantity := q } ∧ q ≤ ord.quantity := by
      rw [matchLimit_eq_loopGen]
      exact loopGen_order limitStop clock k ord book.bids
    dsimp only
    by_cases hq0 : (matchLimit clock k ord book.bids).order.quantity > 0
    · rw [if_pos hq0]
      refine ⟨hbidInv, ?_⟩
      refine insertResting_sideInv _ _ askBefore ?_ hask hq0 ?_
      · exact sideRel_eq_ask (by rw [hqe]; exact hs)
      · rw [hqe]; exact hot
    · rw [if_neg hq0]
      exact ⟨hbidInv, hask⟩

/-- Submit preserves the book invariant. -/
theorem addOrder_inv (clock : Nat → Nat) (book : Book) (ord : Order)
    (hinv : BookInv book) : BookInv (addOrder clock book ord).2 := by
  obtain ⟨hbid, hask⟩ := hinv
  unfold addOrder
  by_cases hm : (stamped clock ord).type = "market"
  · rw [if_pos hm]
    by_cases hs : (stamped clock ord).side = "buy"
    · rw [if_pos hs]
      refine ⟨hbid, ?_⟩
      rw [executeMarket_eq_loopGen]
      exact loopGen_sideInv askBefore askBefore_qty_left _ clock _ _ book.asks hask
    · rw [if_neg hs]
      refine ⟨?_, hask⟩
      rw [executeMarket_eq_loopGen]
      exact loopGen_sideInv bidBefore bidBefore_qty_left _ clock _ _ book.bids hbid
  · rw [if_neg hm]
    by_cases hl : (stamped clock ord).type = "limit"
    · rw [if_pos hl]
      exact limitFlow_inv clock _ book _ ⟨hbid, hask⟩ (stamped_isSome clock ord)
    · rw [if_neg hl]
      exact limitFlow_inv clock _ book _ ⟨hbid, hask⟩ (stamped_isSome clock ord)

/-! ## Single-step exposure of the matching loops -/

/-- One iteration of the limit loop, given the guard and the price gate pass:
the fill is `min` of the two remaining quantities, both orders are decremented
by exactly the fill, and the resting order is popped when its remainder is 0. -/
theorem matchLimit_step (clock : Nat → Nat) (k : Nat) (ord best : Order)
    (rest : List Order) (h0 : ord.quantity ≠ 0)
    (hg1 : ¬ (ord.side = "buy" ∧ best.price > ord.price))
    (hg2 : ¬ (ord.side = "sell" ∧ best.price < ord.price)) :
    matchLimit clock k ord (best :: rest) =
      if best.quantity - min ord.quantity best.quantity = 0 then
        let res := matchLimit clock (k + 1)
          { ord with quantity := ord.quantity - min ord.quantity best.quantity } rest
        ⟨mkReport ord (min ord.quantity best.quantity) best.price (clock k) ::
          mkReport best (min ord.quantity best.quantity) best.price (clock k) ::
          res.reports, res.order, res.opp, res.tick⟩
      else
        ⟨[mkReport ord (min ord.quantity best.quantity) best.price (clock k),
          mkReport best (min ord.quantity best.quantity) best.price (clock k)],
         { ord with quantity := ord.quantity - min ord.quantity best.quantity },
         { best with quantity := best.quantity - min ord.quantity best.quantity } :: rest,
         k + 1⟩ := by
  simp only [matchLimit]
  rw [if_neg h0, if_neg hg1, if_neg hg2]

/-- One iteration of the market loop, given the guard: same fill arithmetic as
the limit loop, with no price condition at all. -/
theorem executeMarket_step (clock : Nat → Nat) (k : Nat) (ord best : Order)
    (rest : List Order) (h0 : ord.quantity ≠ 0) :
    executeMarket clock k ord (best :: rest) =
      if best.quantity - min ord.quantity best.quantity = 0 then
        let res := executeMarket clock (k + 1)
          { ord with quantity := ord.quantity - min ord.quantity best.quantity } rest
        ⟨mkReport ord (min ord.quantity best.quantity) best.price (clock k) ::
          mkReport best (min ord.quantity best.quantity) best.price (clock k) ::
          res.reports, res.order, res.opp, res.tick⟩
      else
        ⟨[mkReport ord (min ord.quantity best.quantity) best.price (clock k),
          mkReport best (min ord.quantity best.quantity) best.price (clock k)],
         { ord with quantity := ord.quantity - min ord.quantity best.quantity },
         { best with quantity := best.quantity - min ord.quantity best.quantity } :: rest,
         k + 1⟩ := by
  simp only [executeMarket]
  rw [if_neg h0]

/-! ## Lifetime conservation across submits -/

theorem sumFor_append (i : String) (rs1 rs2 : List Report) :
    sumFor i (rs1 ++ rs2) = sumFor i rs1 + sumFor i rs2 := by
  unfold sumFor
  rw [List.filter_append, List.map_append, List.sum_append]

theorem qtyFor_append (i : String) (l1 l2 : List Order) :
    qtyFor i (l1 ++ l2) = qtyFor i l1 + qtyFor i l2 := by
  unfold qtyFor
  rw [List.filter_append, List.map_append, List.sum_append]

/-- Inserting an order with a different id does not change any other id's
resting quantity. -/
theorem insertResting_qtyFor (ord : Order) (l : List Order) (i : String)
    (hne : ord.id ≠ i) : qtyFor i (insertResting ord l) = qtyFor i l := by
  obtain ⟨l1, l2, he, hr⟩ := insertResting_split ord l
  rw [hr, he, qtyFor_append, qtyFor_append, qtyFor_cons, if_neg hne]
  omega

/-- Matching never adds ids to the opposite side: its id list is a suffix of
the original id list. -/
theorem loopGen_opp_ids (stop : Order → Order → Bool) (clock : Nat → Nat)
    (k : Nat) (ord : Order) (opp : List Order) :
    ∃ n, (loopGen stop clock k ord opp).opp.map Order.id =
      (opp.map Order.id).drop n := by
  obtain ⟨n, hn⟩ := loopGen_consumedFromFront stop clock k ord opp
  rcases hn with hn | ⟨b, t, q, hd, hl, _, _⟩
  · exact ⟨n, by rw [hn, List.map_drop]⟩
  · refine ⟨n, ?_⟩
    rw [hl, ← List.map_drop, hd]
    rfl

theorem loopGen_opp_nodup (stop : Order → Order → Bool) (clock : Nat → Nat)
    (k : Nat) (ord : Order) (opp : List Order)
    (hnod : (opp.map Order.id).Nodup) :
    ((loopGen stop clock k ord opp).opp.map Order.id).Nodup := by
  obtain ⟨n, hn⟩ := loopGen_opp_ids stop clock k ord opp
  rw [hn]
  exact hnod.sublist (List.drop_sublist n _)

/-- Insertion of a fresh id keeps the side's id list duplicate-free. -/
theorem insertResting_nodup (ord : Order) (l : List Order)
    (hnod : (l.map Order.id).Nodup) (hfresh : ord.id ∉ l.map Order.id) :
    ((insertResting ord l).map Order.id).Nodup := by
  obtain ⟨l1, l2, he, hr⟩ := insertResting_split ord l
  rw [hr, List.map_append, List.map_cons]
  rw [List.nodup_middle, List.nodup_cons, ← List.map_append, ← he]
  exact ⟨hfresh, hnod⟩

/-- Conservation of the total quantity attributed to any id other than the
incoming order's through one matching loop. -/
theorem loopGen_conserve_id (stop : Order → Order → Bool) (clock : Nat → Nat)
    (k : Nat) (ord : Order) (opp : List Order)
    (hnod : (opp.map Order.id).Nodup) (hido : ord.id ∉ opp.map Order.id)
    (i : String) (hi : i ≠ ord.id) :
    sumFor i (loopGen stop clock k ord opp).reports +
      qtyFor i (loopGen stop clock k ord opp).opp = qtyFor i opp := by
  by_cases hmem : i ∈ opp.map Order.id
  · rw [List.mem_map] at hmem
    obtain ⟨b, hb, hbe⟩ := hmem
    have hcons := loopGen_rest_conserve stop clock k ord opp hnod hido b hb
    rw [hbe] at hcons
    have hq : qtyFor i opp = b.quantity := by
      rw [← hbe]; exact qtyFor_of_nodup hnod hb
    rw [hq]
    exact hcons
  · have hz1 : sumFor i (loopGen stop clock k ord opp).reports = 0 := by
      apply sumFor_eq_zero
      intro r hr
      rcases loopGen_reports_ids stop clock k ord opp r hr with h | h
      · rw [h]; exact fun he => hi he.symm
      · intro he; rw [he] at h; exact hmem h
    have hz2 : qtyFor i (loopGen stop clock k ord opp).opp = 0 := by
      apply qtyFor_eq_zero
      intro hm
      rw [List.mem_map] at hm
      obtain ⟨o, ho, hoe⟩ := hm
      obtain ⟨o0, ho0, hoid, _⟩ := loopGen_opp_mem stop clock k ord opp o ho
      exact hmem (by rw [← hoe, hoid]; exact List.mem_map_of_mem Order.id ho0)
    rw [hz1, hz2, qtyFor_eq_zero hmem]

/-- Combined resting quantity of an id across both sides of the book. -/
def bookQtyFor (i : String) (bk : Book) : Nat :=
  qtyFor i bk.bids + qtyFor i bk.asks

theorem insertResting_ids_mem (ord : Order) (l : List Order) (j : String)
    (hj : j ∈ (insertResting ord l).map Order.id) :
    j = ord.id ∨ j ∈ l.map Order.id := by
  obtain ⟨l1, l2, he, hr⟩ := insertResting_split ord l
  rw [hr, List.map_append, List.map_cons] at hj
  rw [he, List.map_append]
  rcases List.mem_append.mp hj with h | h
  · exact Or.inr (List.mem_append.mpr (Or.inl h))
  · rcases List.mem_cons.mp h with rfl | h'
    · exact Or.inl rfl
    · exact Or.inr (List.mem_append.mpr (Or.inr h'))

theorem loopGen_opp_ids_mem (stop : Order → Order → Bool) (clock : Nat → Nat)
    (k : Nat) (ord : Order) (opp : List Order) (j : String)
    (hj : j ∈ (loopGen stop clock k ord opp).opp.map Order.id) :
    j ∈ opp.map Order.id := by
  rw [List.mem_map] at hj
  obtain ⟨o, ho, hoe⟩ := hj
  obtain ⟨o0, ho0, hoid, _⟩ := loopGen_opp_mem stop clock k ord opp o ho
  rw [← hoe, hoid]
  exact List.mem_map_of_mem Order.id ho0

/-- One-submit conservation of every other id's quantity, at the book level:
the fills reported for id `i` plus `i`'s remaining book quantity equal `i`'s
book quantity before the submit. -/
theorem limitFlow_conserve (clock : Nat → Nat) (k : Nat) (book : Book)
    (ord : Order) (i : String)
    (hnb : (book.bids.map Order.id).Nodup) (hna : (book.asks.map Order.id).Nodup)
    (hfb : ord.id ∉ book.bids.map Order.id) (hfa : ord.id ∉ book.asks.map Order.id)
    (hi : i ≠ ord.id) :
    sumFor i (limitFlow clock k book ord).1 +
      bookQtyFor i (limitFlow clock k book ord).2 = bookQtyFor i book := by
  unfold limitFlow bookQtyFor
  by_cases hs : ord.side = "buy"
  · rw [if_pos hs]
    obtain ⟨q, hqe, _⟩ : ∃ q, (matchLimit clock k ord book.asks).order =
        { ord with quantity := q } ∧ q ≤ ord.quantity := by
      rw [matchLimit_eq_loopGen]
      exact loopGen_order limitStop clock k ord book.asks
    have hc : sumFor i (matchLimit clock k ord book.asks).reports +
        qtyFor i (matchLimit clock k ord book.asks).opp = qtyFor i book.asks := by
      rw [matchLimit_eq_loopGen]
      exact loopGen_conserve_id limitStop clock k ord book.asks hna hfa i hi
    dsimp only
    by_cases hq0 : (matchLimit clock k ord book.asks).order.quantity > 0
    · rw [if_pos hq0]
      dsimp only
      rw [insertResting_qtyFor _ _ _ (by rw [hqe]; exact fun he => hi he.symm)]
      omega
    · rw [if_neg hq0]
      dsimp only
      omega
  · rw [if_neg hs]
    obtain ⟨q, hqe, _⟩ : ∃ q, (matchLimit clock k ord book.bids).order =
        { ord with quantity := q } ∧ q ≤ ord.quantity := by
      rw [matchLimit_eq_loopGen]
      exact loopGen_order limitStop clock k ord book.bids
    have hc : sumFor i (matchLimit clock k ord book.bids).reports +
        qtyFor i (matchLimit clock k ord book.bids).opp = qtyFor i book.bids := by
      rw [matchLimit_eq_loopGen]
      exact loopGen_conserve_id limitStop clock k ord book.bids hnb hfb i hi
    dsimp only
    by_cases hq0 : (matchLimit clock k ord book.bids).order.quantity > 0
    · rw [if_pos hq0]
      dsimp only
      rw [insertResting_qtyFor _ _ _ (by rw [hqe]; exact fun he => hi he.symm)]
      omega
    · rw [if_neg hq0]
      dsimp only
      omega

theorem addOrder_conserve (clock : Nat → Nat) (book : Book) (ord : Order)
    (i : String)
    (hnb : (book.bids.map Order.id).Nodup) (hna : (book.asks.map Order.id).Nodup)
    (hfb : ord.id ∉ book.bids.map Order.id) (hfa : ord.id ∉ book.asks.map Order.id)
    (hi : i ≠ ord.id) :
    sumFor i (addOrder clock book ord).1 +
      bookQtyFor i (addOrder clock book ord).2 = bookQtyFor i book := by
  have hsid : (stamped clock ord).id = ord.id := (stamped_fields clock ord).1
  unfold addOrder
  by_cases hm : (stamped clock ord).type = "market"
  · rw [if_pos hm]
    by_cases hs : (stamped clock ord).side = "buy"
    · rw [if_pos hs]
      have hc : sumFor i (executeMarket clock (startTick ord) (stamped clock ord)
            book.asks).reports +
          qtyFor i (executeMarket clock (startTick ord) (stamped clock ord)
            book.asks).opp = qtyFor i book.asks := by
        rw [executeMarket_eq_loopGen]
        exact loopGen_conserve_id _ clock _ _ book.asks hna
          (by rw [hsid]; exact hfa) i (by rw [hsid]; exact hi)
      unfold bookQtyFor
      dsimp only
      omega
    · rw [if_neg hs]
      have hc : sumFor i (executeMarket clock (startTick ord) (stamped clock ord)
            book.bids).reports +
          qtyFor i (executeMarket clock (startTick ord) (stamped clock ord)
            book.bids).opp = qtyFor i book.bids := by
        rw [executeMarket_eq_loopGen]
        exact loopGen_conserve_id _ clock _ _ book.bids hnb
          (by rw [hsid]; exact hfb) i (by rw [hsid]; exact hi)
      unfold bookQtyFor
      dsimp only
      omega
  · rw [if_neg hm]
    have hres := limitFlow_conserve clock (startTick ord) book (stamped clock ord)
      i hnb hna (by rw [hsid]; exact hfb) (by rw [hsid]; exact hfa)
      (by rw [hsid]; exact hi)
    by_cases hl : (stamped clock ord).type = "limit"
    · rw [if_pos hl]; exact hres
    · rw [if_neg hl]; exact hres

/-- After one submit with a fresh id, both sides still have duplicate-free id
lists, and every id in the book is either the submitted id or an id that was
already on that side. -/
theorem limitFlow_book_facts (clock : Nat → Nat) (k : Nat) (book : Book)
    (ord : Order)
    (hnb : (book.bids.map Order.id).Nodup) (hna : (book.asks.map Order.id).Nodup)
    (hfb : ord.id ∉ book.bids.map Order.id)
    (hfa : ord.id ∉ book.asks.map Order.id) :
    (((limitFlow clock k book ord).2.bids.map Order.id).Nodup ∧
      ((limitFlow clock k book ord).2.asks.map Order.id).Nodup) ∧
    (∀ j, (j ∈ (limitFlow clock k book ord).2.bids.map Order.id →
        j = ord.id ∨ j ∈ book.bids.map Order.id) ∧
      (j ∈ (limitFlow clock k book ord).2.asks.map Order.id →
        j = ord.id ∨ j ∈ book.asks.map Order.id)) := by
  unfold limitFlow
  by_cases hs : ord.side = "buy"
  · rw [if_pos hs]
    obtain ⟨q, hqe, _⟩ : ∃ q, (matchLimit clock k ord book.asks).order =
        { ord with quantity := q } ∧ q ≤ ord.quantity := by
      rw [matchLimit_eq_loopGen]
      exact loopGen_order limitStop clock k ord book.asks
    have hoppN : ((matchLimit clock k ord book.asks).opp.map Order.id).Nodup := by
      rw [matchLimit_eq_loopGen]
      exact loopGen_opp_nodup limitStop clock k ord book.asks hna
    have hoppM : ∀ j, j ∈ (matchLimit clock k ord book.asks).opp.map Order.id →
        j ∈ book.asks.map Order.id := by
      intro j hj
      rw [matchLimit_eq_loopGen] at hj
      exact loopGen_opp_ids_mem limitStop clock k ord book.asks j hj
    dsimp only
    by_cases hq0 : (matchLimit clock k ord book.asks).order.quantity > 0
    · rw [if_pos hq0]
      dsimp only
      refine ⟨⟨?_, hoppN⟩, ?_⟩
      · have : (matchLimit clock k ord book.asks).order.id = ord.id := by
          rw [hqe]
        apply insertResting_nodup _ _ hnb
        rw [this]
        exact hfb
      · intro j
        refine ⟨fun hj => ?_, fun hj => Or.inr (hoppM j hj)⟩
        rcases insertResting_ids_mem _ _ j hj with h | h
        · rw [hqe] at h
          exact Or.inl h
        · exact Or.inr h
    · rw [if_neg hq0]
      dsimp only
      exact ⟨⟨hnb, hoppN⟩, fun j =>
        ⟨fun hj => Or.inr hj, fun hj => Or.inr (hoppM j hj)⟩⟩
  · rw [if_neg hs]
    obtain ⟨q, hqe, _⟩ : ∃ q, (matchLimit clock k ord book.bids).order =
        { ord with quantity := q } ∧ q ≤ ord.quantity := by
      rw [matchLimit_eq_loopGen]
      exact loopGen_order limitStop clock k ord book.bids
    have hoppN : ((matchLimit clock k ord book.bids).opp.map Order.id).Nodup := by
      rw [matchLimit_eq_loopGen]
      exact loopGen_opp_nodup limitStop clock k ord book.bids hnb
    have hoppM : ∀ j, j ∈ (matchLimit clock k ord book.bids).opp.map Order.id →
        j ∈ book.bids.map Order.id := by
      intro j hj
      rw [matchLimit_eq_loopGen] at hj
      exact loopGen_opp_ids_mem limitStop clock k ord book.bids j hj
    dsimp only
    by_cases hq0 : (matchLimit clock k ord book.bids).order.quantity > 0
    · rw [if_pos hq0]
      dsimp only
      refine ⟨⟨hoppN, ?_⟩, ?_⟩
      · have : (matchLimit clock k ord book.bids).order.id = ord.id := by
          rw [hqe]
        apply insertResting_nodup _ _ hna
        rw [this]
        exact hfa
      · intro j
        refine ⟨fun hj => Or.inr (hoppM j hj), fun hj => ?_⟩
        rcases insertResting_ids_mem _ _ j hj with h | h
        · rw [hqe] at h
          exact Or.inl h
        · exact Or.inr h
    · rw [if_neg hq0]
      dsimp only
      exact ⟨⟨hoppN, hna⟩, fun j =>
        ⟨fun hj => Or.inr (hoppM j hj), fun hj => Or.inr hj⟩⟩

theorem addOrder_book_facts (clock : Nat → Nat) (book : Book) (ord : Order)
    (hnb : (book.bids.map Order.id).Nodup) (hna : (book.asks.map Order.id).Nodup)
    (hfb : ord.id ∉ book.bids.map Order.id)
    (hfa : ord.id ∉ book.asks.map Order.id) :
    (((addOrder clock book ord).2.bids.map Order.id).Nodup ∧
      ((addOrder clock book ord).2.asks.map Order.id).Nodup) ∧
    (∀ j, (j ∈ (addOrder clock book ord).2.bids.map Order.id →
        j = ord.id ∨ j ∈ book.bids.map Order.id) ∧
      (j ∈ (addOrder clock book ord).2.asks.map Order.id →
        j = ord.id ∨ j ∈ book.asks.map Order.id)) := by
  have hsid : (stamped clock ord).id = ord.id := (stamped_fields clock ord).1
  unfold addOrder
  by_cases hm : (stamped clock ord).type = "market"
  · rw [if_pos hm]
    by_cases hs : (stamped clock ord).side = "buy"
    · rw [if_pos hs]
      have hoppN : ((executeMarket clock (startTick ord) (stamped clock ord)
          book.asks).opp.map Order.id).Nodup := by
        rw [executeMarket_eq_loopGen]
        exact loopGen_opp_nodup _ clock _ _ book.asks hna
      have hoppM : ∀ j, j ∈ (executeMarket clock (startTick ord)
          (stamped clock ord) book.asks).opp.map Order.id →
          j ∈ book.asks.map Order.id := by
        intro j hj
        rw [executeMarket_eq_loopGen] at hj
        exact loopGen_opp_ids_mem _ clock _ _ book.asks j hj
      exact ⟨⟨hnb, hoppN⟩, fun j =>
        ⟨fun hj => Or.inr hj, fun hj => Or.inr (hoppM j hj)⟩⟩
    · rw [if_neg hs]
      have hoppN : ((executeMarket clock (startTick ord) (stamped clock ord)
          book.bids).opp.map Order.id).Nodup := by
        rw [executeMarket_eq_loopGen]
        exact loopGen_opp_nodup _ clock _ _ book.bids hnb
      have hoppM : ∀ j, j ∈ (executeMarket clock (startTick ord)
          (stamped clock ord) book.bids).opp.map Order.id →
          j ∈ book.bids.map Order.id := by
        intro j hj
        rw [executeMarket_eq_loopGen] at hj
        exact loopGen_opp_ids_mem _ clock _ _ book.bids j hj
      exact ⟨⟨hoppN, hna⟩, fun j =>
        ⟨fun hj => Or.inr (hoppM j hj), fun hj => Or.inr hj⟩⟩
  · rw [if_neg hm]
    have hres := limitFlow_book_facts clock (startTick ord) book (stamped clock ord)
      hnb hna (by rw [hsid]; exact hfb) (by rw [hsid]; exact hfa)
    rw [hsid] at hres
    by_cases hl : (stamped clock ord).type = "limit"
    · rw [if_pos hl]; exact hres
    · rw [if_neg hl]; exact hres

/-- Harness folding a sequence of submits through the book, accumulating all
execution reports, to express lifetime properties of a resting order. -/
def runOrders (clock : Nat → Nat) (book : Book) : List Order → List Report × Book
  | [] => ([], book)
  | o :: os =>
    let r := addOrder clock book o
    let rs := runOrders clock r.2 os
    (r.1 ++ rs.1, rs.2)

/-- Lifetime conservation: across any sequence of submits with fresh,
pairwise-distinct ids, the fills reported against a resting id `i` plus its
remaining book quantity equal its initial book quantity. -/
theorem runOrders_conserve (clock : Nat → Nat) (book : Book)
    (orders : List Order) (i : String)
    (hnb : (book.bids.map Order.id).Nodup) (hna : (book.asks.map Order.id).Nodup)
    (hfresh : ∀ o ∈ orders, o.id ∉ book.bids.map Order.id ∧
      o.id ∉ book.asks.map Order.id)
    (hdist : (orders.map Order.id).Nodup)
    (hi : ∀ o ∈ orders, o.id ≠ i) :
    sumFor i (runOrders clock book orders).1 +
      bookQtyFor i (runOrders clock book orders).2 = bookQtyFor i book := by
  induction orders generalizing book with
  | nil => simp [runOrders, sumFor_nil]
  | cons o os ih =>
    rw [List.map_cons, List.nodup_cons] at hdist
    have hfo := hfresh o (List.mem_cons_self _ _)
    have h1 := addOrder_conserve clock book o i hnb hna hfo.1 hfo.2
      (fun he => hi o (List.mem_cons_self _ _) he.symm)
    have hfacts := addOrder_book_facts clock book o hnb hna hfo.1 hfo.2
    have ihs := ih (addOrder clock book o).2 hfacts.1.1 hfacts.1.2
      (by
        intro o2 ho2
        have hne : o2.id ≠ o.id := by
          intro he
          exact hdist.1 (he ▸ List.mem_map_of_mem Order.id ho2)
        have hf2 := hfresh o2 (List.mem_cons_of_mem _ ho2)
        constructor
        · intro hin
          rcases (hfacts.2 o2.id).1 hin with h | h
          · exact hne h
          · exact hf2.1 h
        · intro hin
          rcases (hfacts.2 o2.id).2 hin with h | h
          · exact hne h
          · exact hf2.2 h)
      hdist.2
      (fun o2 ho2 => hi o2 (List.mem_cons_of_mem _ ho2))
    simp only [runOrders]
    rw [sumFor_append]
    omega

/-- The market loop ignores the incoming order's price entirely: its reports
and the resulting opposite side are unchanged under any price. -/
theorem executeMarket_price_indep (clock : Nat → Nat) (k : Nat) (ord : Order)
    (opp : List Order) (p : Int) :
    (executeMarket clock k { ord with price := p } opp).reports =
        (executeMarket clock k ord opp).reports ∧
      (executeMarket clock k { ord with price := p } opp).opp =
        (executeMarket clock k ord opp).opp := by
  induction opp generalizing k ord with
  | nil => exact ⟨rfl, rfl⟩
  | cons best rest ih =>
    simp only [executeMarket]
    by_cases h0 : ord.quantity = 0
    · have h0p : ({ ord with price := p } : Order).quantity = 0 := h0
      rw [if_pos h0, if_pos h0p]
      refine ⟨?_, ?_⟩ <;> first | rfl | trivial
    · have h0p : ¬ ({ ord with price := p } : Order).quantity = 0 := h0
      rw [if_neg h0, if_neg h0p]
      by_cases hb2 : best.quantity - min ord.quantity best.quantity = 0
      · have hb2p : best.quantity -
            min ({ ord with price := p } : Order).quantity best.quantity = 0 := hb2
        rw [if_pos hb2, if_pos hb2p]
        have hrec := ih (k + 1)
          { ord with quantity := ord.quantity - min ord.quantity best.quantity }
        dsimp only at hrec ⊢
        simp only [mkReport]
        dsimp only
        exact ⟨by rw [hrec.1], hrec.2⟩
      · have hb2p : ¬ (best.quantity -
            min ({ ord with price := p } : Order).quantity best.quantity = 0) := hb2
        rw [if_neg hb2, if_neg hb2p]
        dsimp only
        simp only [mkReport]
        refine ⟨?_, ?_⟩ <;> first | rfl | trivial

/-- The matching loop ignores the incoming order's timestamp: its reports and
the resulting opposite side are unchanged under any timestamp. -/
theorem loopGen_ts_indep (stop : Order → Order → Bool) (clock : Nat → Nat)
    (k : Nat) (t : Option Nat) (ord : Order) (opp : List Order)
    (hstop : ∀ a b t', stop { a with timestamp := t' } b = stop a b) :
    (loopGen stop clock k { ord with timestamp := t } opp).reports =
        (loopGen stop clock k ord opp).reports ∧
      (loopGen stop clock k { ord with timestamp := t } opp).opp =
        (loopGen stop clock k ord opp).opp := by
  induction opp generalizing k ord with
  | nil => exact ⟨rfl, rfl⟩
  | cons best rest ih =>
    simp only [loopGen]
    by_cases h0 : ord.quantity = 0
    · have h0p : ({ ord with timestamp := t } : Order).quantity = 0 := h0
      rw [if_pos h0, if_pos h0p]
      refine ⟨?_, ?_⟩ <;> first | rfl | trivial
    · have h0p : ¬ ({ ord with timestamp := t } : Order).quantity = 0 := h0
      rw [if_neg h0, if_neg h0p]
      rw [hstop ord best t]
      by_cases hst : stop ord best
      · simp only [hst, if_true]
        refine ⟨?_, ?_⟩ <;> first | rfl | trivial
      · simp only [hst, Bool.false_eq_true, if_false]
        by_cases hb2 : best.quantity - min ord.quantity best.quantity = 0
        · have hb2p : best.quantity -
              min ({ ord with timestamp := t } : Order).quantity best.quantity = 0 := hb2
          rw [if_pos hb2, if_pos hb2p]
          have hrec := ih (k + 1)
            { ord with quantity := ord.quantity - min ord.quantity best.quantity }
          dsimp only at hrec ⊢
          simp only [mkReport]
          dsimp only
          exact ⟨by rw [hrec.1], hrec.2⟩
        · have hb2p : ¬ (best.quantity -
              min ({ ord with timestamp := t } : Order).quantity best.quantity = 0) := hb2
          rw [if_neg hb2, if_neg hb2p]
          dsimp only
          simp only [mkReport]
          refine ⟨?_, ?_⟩ <;> first | rfl | trivial

theorem limitStop_ts (a b : Order) (t : Option Nat) :
    limitStop { a with timestamp := t } b = limitStop a b := rfl

/-- The reports of the limit path are exactly the reports of the matching
loop against the opposite side. -/
theorem limitFlow_reports (clock : Nat → Nat) (k : Nat) (book : Book)
    (ord : Order) :
    (limitFlow clock k book ord).1 =
      (matchLimit clock k ord
        (if ord.side = "buy" then book.asks else book.bids)).reports := by
  unfold limitFlow
  by_cases hs : ord.side = "buy"
  · rw [if_pos hs, if_pos hs]
    dsimp only
    by_cases hq0 : (matchLimit clock k ord book.asks).order.quantity > 0
    · rw [if_pos hq0]
    · rw [if_neg hq0]
  · rw [if_neg hs, if_neg hs]
    dsimp only
    by_cases hq0 : (matchLimit clock k ord book.bids).order.quantity > 0
    · rw [if_pos hq0]
    · rw [if_neg hq0]

/-- Submit under two clocks: the reports agree on everything except
timestamps; if the incoming order already carries a timestamp, the resulting
books are identical. -/
theorem addOrder_clock (c1 c2 : Nat → Nat) (book : Book) (ord : Order) :
    (addOrder c1 book ord).1.map stripTs = (addOrder c2 book ord).1.map stripTs ∧
      (ord.timestamp ≠ none →
        (addOrder c1 book ord).2 = (addOrder c2 book ord).2) := by
  have htype1 : (stamped c1 ord).type = ord.type := (stamped_fields c1 ord).2.2.2.2.1
  have htype2 : (stamped c2 ord).type = ord.type := (stamped_fields c2 ord).2.2.2.2.1
  have hside1 : (stamped c1 ord).side = ord.side := (stamped_fields c1 ord).2.2.1
  have hside2 : (stamped c2 ord).side = ord.side := (stamped_fields c2 ord).2.2.1
  by_cases hts : ord.timestamp = none
  · -- timestamp assigned from the clock; only the reports are compared
    refine ⟨?_, fun h => absurd hts h⟩
    have hst1 : stamped c1 ord = { ord with timestamp := some (c1 0) } := by
      unfold stamped; rw [if_pos hts]
    have hst2 : stamped c2 ord = { ord with timestamp := some (c2 0) } := by
      unfold stamped; rw [if_pos hts]
    simp only [addOrder]
    rw [htype1, htype2]
    by_cases hm : ord.type = "market"
    · rw [if_pos hm, if_pos hm]
      rw [hside1, hside2]
      by_cases hs : ord.side = "buy"
      · rw [if_pos hs, if_pos hs]
        dsimp only
        rw [executeMarket_eq_loopGen, executeMarket_eq_loopGen, hst1, hst2,
          (loopGen_ts_indep (fun _ _ => false) c1 (startTick ord) (some (c1 0))
            ord book.asks (fun _ _ _ => rfl)).1,
          (loopGen_ts_indep (fun _ _ => false) c2 (startTick ord) (some (c2 0))
            ord book.asks (fun _ _ _ => rfl)).1]
        exact (loopGen_clock _ c1 c2 _ _ ord book.asks).1
      · rw [if_neg hs, if_neg hs]
        dsimp only
        rw [executeMarket_eq_loopGen, executeMarket_eq_loopGen, hst1, hst2,
          (loopGen_ts_indep (fun _ _ => false) c1 (startTick ord) (some (c1 0))
            ord book.bids (fun _ _ _ => rfl)).1,
          (loopGen_ts_indep (fun _ _ => false) c2 (startTick ord) (some (c2 0))
            ord book.bids (fun _ _ _ => rfl)).1]
        exact (loopGen_clock _ c1 c2 _ _ ord book.bids).1
    · have hflow : ∀ c : Nat → Nat, (limitFlow c (startTick ord) book
          (stamped c ord)).1.map stripTs =
            (loopGen limitStop c (startTick ord) ord
              (if ord.side = "buy" then book.asks else book.bids)).reports.map
                stripTs := by
        intro c
        have hstc : stamped c ord = { ord with timestamp := some (c 0) } := by
          unfold stamped; rw [if_pos hts]
        rw [limitFlow_reports]
        have hsidec : (stamped c ord).side = ord.side := (stamped_fields c ord).2.2.1
        rw [hsidec, matchLimit_eq_loopGen, hstc]
        rw [(loopGen_ts_indep limitStop c (startTick ord) (some (c 0)) ord
          (if ord.side = "buy" then book.asks else book.bids)
          (fun a b t' => limitStop_ts a b t')).1]
      by_cases hl : ord.type = "limit"
      · rw [if_neg hm, if_neg hm, if_pos hl, if_pos hl, hflow c1, hflow c2]
        exact (loopGen_clock limitStop c1 c2 (startTick ord) (startTick ord) ord
          (if ord.side = "buy" then book.asks else book.bids)).1
      · rw [if_neg hm, if_neg hm, if_neg hl, if_neg hl, hflow c1, hflow c2]
        exact (loopGen_clock limitStop c1 c2 (startTick ord) (startTick ord) ord
          (if ord.side = "buy" then book.asks else book.bids)).1
  · -- timestamp present: same stamped order and tick on both sides
    have hst1 : stamped c1 ord = ord := by unfold stamped; rw [if_neg hts]
    have hst2 : stamped c2 ord = ord := by unfold stamped; rw [if_neg hts]
    simp only [addOrder]
    rw [hst1, hst2]
    by_cases hm : ord.type = "market"
    · rw [if_pos hm, if_pos hm]
      by_cases hs : ord.side = "buy"
      · rw [if_pos hs, if_pos hs]
        dsimp only
        rw [executeMarket_eq_loopGen, executeMarket_eq_loopGen]
        obtain ⟨hr, _, hl2⟩ := loopGen_clock (fun _ _ => false) c1 c2
          (startTick ord) (startTick ord) ord book.asks
        exact ⟨hr, fun _ => by rw [hl2]⟩
      · rw [if_neg hs, if_neg hs]
        dsimp only
        rw [executeMarket_eq_loopGen, executeMarket_eq_loopGen]
        obtain ⟨hr, _, hl2⟩ := loopGen_clock (fun _ _ => false) c1 c2
          (startTick ord) (startTick ord) ord book.bids
        exact ⟨hr, fun _ => by rw [hl2]⟩
    · obtain ⟨hr, hb⟩ := limitFlow_clock c1 c2 (startTick ord) (startTick ord)
        book ord
      by_cases hl : ord.type = "limit"
      · rw [if_neg hm, if_neg hm, if_pos hl, if_pos hl]
        exact ⟨hr, fun _ => hb⟩
      · rw [if_neg hm, if_neg hm, if_neg hl, if_neg hl]
        exact ⟨hr, fun _ => hb⟩

/-! ## Claim theorems -/

/-- Sample data for witnesses. -/
def wClock : Nat → Nat := fun k => 100 + k

def wAsk : Order := ⟨"a1", "X", "sell", 5, "limit", 150, some 1⟩

def wBuy : Order := ⟨"b1", "X", "buy", 3, "limit", 140, none⟩

def wBook : Book := ⟨[], [wAsk]⟩

/-- C1: for every submitted limit order, matching proceeds only while the
price gate holds — a buy matches the head of the asks only while
`best.price <= order.price`, a sell matches the head of the bids only while
`best.price >= order.price`; when the gate fails the loop stops at once and
the remaining quantity rests; market orders are matched with no price
constraint at all (the incoming price field is ignored). -/
theorem claim1_price_gate :
    (∀ (clock : Nat → Nat) (k : Nat) (ord best : Order) (rest : List Order),
      ord.side = "buy" → best.price > ord.price →
      matchLimit clock k ord (best :: rest) = ⟨[], ord, best :: rest, k⟩) ∧
    (∀ (clock : Nat → Nat) (k : Nat) (ord best : Order) (rest : List Order),
      ord.side = "sell" → best.price < ord.price →
      matchLimit clock k ord (best :: rest) = ⟨[], ord, best :: rest, k⟩) ∧
    (∀ (clock : Nat → Nat) (k : Nat) (ord : Order) (opp : List Order),
      ∀ r ∈ (matchLimit clock k ord opp).reports,
        (ord.side = "buy" → r.price ≤ ord.price) ∧
        (ord.side = "sell" → ord.price ≤ r.price)) ∧
    (∀ (clock : Nat → Nat) (k : Nat) (ord : Order) (opp : List Order) (p : Int),
      (executeMarket clock k { ord with price := p } opp).reports =
          (executeMarket clock k ord opp).reports ∧
        (executeMarket clock k { ord with price := p } opp).opp =
          (executeMarket clock k ord opp).opp) ∧
    (∀ (clock : Nat → Nat) (book : Book) (ord best : Order) (rest : List Order),
      ord.type = "limit" → ord.side = "buy" → 0 < ord.quantity →
      book.asks = best :: rest → best.price > ord.price →
      addOrder clock book ord =
        ([], ⟨insertResting (stamped clock ord) book.bids, book.asks⟩)) ∧
    (∀ (clock : Nat → Nat) (book : Book) (ord best : Order) (rest : List Order),
      ord.type = "limit" → ord.side = "sell" → 0 < ord.quantity →
      book.bids = best :: rest → best.price < ord.price →
      addOrder clock book ord =
        ([], ⟨book.bids, insertResting (stamped clock ord) book.asks⟩)) := by
  refine ⟨matchLimit_stops_buy, matchLimit_stops_sell, matchLimit_report_price,
    executeMarket_price_indep, ?_, ?_⟩
  · intro clock book ord best rest hlim hside hq hasks hp
    have htype : (stamped clock ord).type = ord.type := (stamped_fields clock ord).2.2.2.2.1
    have hsideS : (stamped clock ord).side = ord.side := (stamped_fields clock ord).2.2.1
    have hqS : (stamped clock ord).quantity = ord.quantity := (stamped_fields clock ord).2.2.2.1
    have hpS : (stamped clock ord).price = ord.price := (stamped_fields clock ord).2.2.2.2.2
    simp only [addOrder]
    rw [htype, hlim, if_neg (by decide : ¬ ("limit" = "market")),
      if_pos rfl]
    unfold limitFlow
    rw [hsideS, hside, if_pos rfl, hasks]
    rw [matchLimit_stops_buy clock (startTick ord) (stamped clock ord) best rest
      (by rw [hsideS, hside]) (by rw [hpS]; exact hp)]
    dsimp only
    rw [if_pos (by rw [hqS]; exact hq)]
  · intro clock book ord best rest hlim hside hq hbids hp
    have htype : (stamped clock ord).type = ord.type := (stamped_fields clock ord).2.2.2.2.1
    have hsideS : (stamped clock ord).side = ord.side := (stamped_fields clock ord).2.2.1
    have hqS : (stamped clock ord).quantity = ord.quantity := (stamped_fields clock ord).2.2.2.1
    have hpS : (stamped clock ord).price = ord.price := (stamped_fields clock ord).2.2.2.2.2
    simp only [addOrder]
    rw [htype, hlim, if_neg (by decide : ¬ ("limit" = "market")),
      if_pos rfl]
    unfold limitFlow
    rw [hsideS, hside, if_neg (by decide : ¬ ("sell" = "buy")), hbids]
    rw [matchLimit_stops_sell clock (startTick ord) (stamped clock ord) best rest
      (by rw [hsideS, hside]) (by rw [hpS]; exact hp)]
    dsimp only
    rw [if_pos (by rw [hqS]; exact hq)]

/-- Witness for C1: a buy limit 3@140 against a book whose best ask is 150
stops at the gate and rests. -/
theorem claim1_price_gate_witness :
    wBuy.type = "limit" ∧ wBuy.side = "buy" ∧ 0 < wBuy.quantity ∧
      wBook.asks = wAsk :: [] ∧ wAsk.price > wBuy.price ∧
      addOrder wClock wBook wBuy =
        ([], ⟨insertResting (stamped wClock wBuy) wBook.bids, wBook.asks⟩) :=
  ⟨rfl, rfl, by decide, rfl, by decide,
    claim1_price_gate.2.2.2.2.1 wClock wBook wBuy wAsk [] rfl rfl (by decide)
      rfl (by decide)⟩

/-- Well-formedness of a submitted order, per the spec's precondition. -/
def WellFormed (o : Order) : Prop := 0 < o.quantity

instance (o : Order) : Decidable (WellFormed o) := by
  unfold WellFormed; infer_instance

/-- C3: for every book state satisfying the side-ordering invariant (bids by
descending price then ascending timestamp, asks by ascending price then
ascending timestamp, all resting quantities positive) and every well-formed
submitted order, the state after submit still satisfies the invariant; in
particular no resting order with quantity 0 remains in either side. -/
theorem claim3_invariant_preserved (clock : Nat → Nat) (book : Book)
    (ord : Order) (hinv : BookInv book) (hwf : WellFormed ord) :
    BookInv (addOrder clock book ord).2 ∧
      (∀ o ∈ (addOrder clock book ord).2.bids, o.quantity ≠ 0) ∧
      (∀ o ∈ (addOrder clock book ord).2.asks, o.quantity ≠ 0) := by
  have h := addOrder_inv clock book ord hinv
  exact ⟨h, fun o ho => Nat.pos_iff_ne_zero.mp (h.1.2.1 o ho),
    fun o ho => Nat.pos_iff_ne_zero.mp (h.2.2.1 o ho)⟩

/-- Witness for C3: submitting a crossing sell limit into a one-bid book
keeps the invariant. -/
theorem claim3_invariant_preserved_witness :
    BookInv ⟨[⟨"b9", "X", "buy", 4, "limit", 120, some 3⟩], []⟩ ∧
      WellFormed ⟨"s9", "X", "sell", 6, "limit", 110, none⟩ ∧
      (BookInv (addOrder wClock ⟨[⟨"b9", "X", "buy", 4, "limit", 120, some 3⟩], []⟩
          ⟨"s9", "X", "sell", 6, "limit", 110, none⟩).2 ∧
        (∀ o ∈ (addOrder wClock ⟨[⟨"b9", "X", "buy", 4, "limit", 120, some 3⟩], []⟩
          ⟨"s9", "X", "sell", 6, "limit", 110, none⟩).2.bids, o.quantity ≠ 0) ∧
        (∀ o ∈ (addOrder wClock ⟨[⟨"b9", "X", "buy", 4, "limit", 120, some 3⟩], []⟩
          ⟨"s9", "X", "sell", 6, "limit", 110, none⟩).2.asks, o.quantity ≠ 0)) :=
  ⟨⟨⟨List.Pairwise.cons (by simp) List.Pairwise.nil, by simp, by simp⟩,
      ⟨List.Pairwise.nil, by simp, by simp⟩⟩,
    by decide,
    claim3_invariant_preserved wClock _ _
      ⟨⟨List.Pairwise.cons (by simp) List.Pairwise.nil, by simp, by simp⟩,
        ⟨List.Pairwise.nil, by simp, by simp⟩⟩
      (by decide)⟩

/-- C4: in every execution report, the status is `"filled"` exactly when the
reported order's remaining quantity becomes 0 with the reported fill, and
`"partial_fill"` otherwise — for the aggressor and the resting counterparty,
on both the limit and the market matching paths. -/
theorem claim4_status (clock : Nat → Nat) (k : Nat) (ord : Order)
    (opp : List Order) (hnod : (opp.map Order.id).Nodup)
    (hid : ord.id ∉ opp.map Order.id) :
    aggStatusOK ord.quantity (matchLimit clock k ord opp).reports ∧
    aggStatusOK ord.quantity (executeMarket clock k ord opp).reports ∧
    (∀ b ∈ opp, ∀ r ∈ (matchLimit clock k ord opp).reports, r.orderId = b.id →
      ((r.status = "filled" ↔ b.quantity - r.filledQty = 0) ∧
        r.filledQty ≤ b.quantity)) ∧
    (∀ b ∈ opp, ∀ r ∈ (executeMarket clock k ord opp).reports, r.orderId = b.id →
      ((r.status = "filled" ↔ b.quantity - r.filledQty = 0) ∧
        r.filledQty ≤ b.quantity)) := by
  rw [matchLimit_eq_loopGen, executeMarket_eq_loopGen]
  exact ⟨loopGen_aggStatus _ clock k ord opp, loopGen_aggStatus _ clock k ord opp,
    loopGen_restStatus _ clock k ord opp hnod hid,
    loopGen_restStatus _ clock k ord opp hnod hid⟩

/-- Witness for C4: market sell 7 against two resting bids. -/
theorem claim4_status_witness :
    (([⟨"p1", "X", "buy", 4, "limit", 120, some 3⟩,
        ⟨"p2", "X", "buy", 9, "limit", 119, some 4⟩] : List Order).map
          Order.id).Nodup ∧
      "m7" ∉ ([⟨"p1", "X", "buy", 4, "limit", 120, some 3⟩,
        ⟨"p2", "X", "buy", 9, "limit", 119, some 4⟩] : List Order).map Order.id ∧
      aggStatusOK 7 (executeMarket wClock 0 ⟨"m7", "X", "sell", 7, "market", 0, some 9⟩
        [⟨"p1", "X", "buy", 4, "limit", 120, some 3⟩,
         ⟨"p2", "X", "buy", 9, "limit", 119, some 4⟩]).reports := by
  refine ⟨by decide, by decide, ?_⟩
  exact (claim4_status wClock 0 ⟨"m7", "X", "sell", 7, "market", 0, some 9⟩
    [⟨"p1", "X", "buy", 4, "limit", 120, some 3⟩,
     ⟨"p2", "X", "buy", 9, "limit", 119, some 4⟩] (by decide) (by decide)).2.1

/-- C5: every match produces exactly two execution reports — the aggressor's
immediately followed by the resting counterparty's — carrying the same fill
quantity, the same timestamp, and a trade price that is the resting order's
price. -/
theorem claim5_report_pairs (clock : Nat → Nat) (k : Nat) (ord : Order)
    (opp : List Order) :
    pairedOK ord.id opp (matchLimit clock k ord opp).reports ∧
    pairedOK ord.id opp (executeMarket clock k ord opp).reports := by
  rw [matchLimit_eq_loopGen, executeMarket_eq_loopGen]
  exact ⟨loopGen_paired _ clock k ord opp, loopGen_paired _ clock k ord opp⟩

/-- C2: every match step (limit or market) fills exactly
`min(incoming remaining, resting remaining)`, subtracts exactly that quantity
from both orders, and consequently the fills reported against any single
order never exceed its original quantity — per submit and over the lifetime
of a resting order across submits. -/
theorem claim2_conservation :
    -- one limit step: fill = min of the remaining quantities, both decremented
    (∀ (clock : Nat → Nat) (k : Nat) (ord best : Order) (rest : List Order),
      ord.quantity ≠ 0 →
      ¬ (ord.side = "buy" ∧ best.price > ord.price) →
      ¬ (ord.side = "sell" ∧ best.price < ord.price) →
      matchLimit clock k ord (best :: rest) =
        if best.quantity - min ord.quantity best.quantity = 0 then
          let res := matchLimit clock (k + 1)
            { ord with quantity := ord.quantity - min ord.quantity best.quantity } rest
          ⟨mkReport ord (min ord.quantity best.quantity) best.price (clock k) ::
            mkReport best (min ord.quantity best.quantity) best.price (clock k) ::
            res.reports, res.order, res.opp, res.tick⟩
        else
          ⟨[mkReport ord (min ord.quantity best.quantity) best.price (clock k),
            mkReport best (min ord.quantity best.quantity) best.price (clock k)],
           { ord with quantity := ord.quantity - min ord.quantity best.quantity },
           { best with quantity := best.quantity - min ord.quantity best.quantity } :: rest,
           k + 1⟩) ∧
    -- one market step: identical fill arithmetic
    (∀ (clock : Nat → Nat) (k : Nat) (ord best : Order) (rest : List Order),
      ord.quantity ≠ 0 →
      executeMarket clock k ord (best :: rest) =
        if best.quantity - min ord.quantity best.quantity = 0 then
          let res := executeMarket clock (k + 1)
            { ord with quantity := ord.quantity - min ord.quantity best.quantity } rest
          ⟨mkReport ord (min ord.quantity best.quantity) best.price (clock k) ::
            mkReport best (min ord.quantity best.quantity) best.price (clock k) ::
            res.reports, res.order, res.opp, res.tick⟩
        else
          ⟨[mkReport ord (min ord.quantity best.quantity) best.price (clock k),
            mkReport best (min ord.quantity best.quantity) best.price (clock k)],
           { ord with quantity := ord.quantity - min ord.quantity best.quantity },
           { best with quantity := best.quantity - min ord.quantity best.quantity } :: rest,
           k + 1⟩) ∧
    -- per-submit conservation, limit path
    (∀ (clock : Nat → Nat) (k : Nat) (ord : Order) (opp : List Order),
      (opp.map Order.id).Nodup → ord.id ∉ opp.map Order.id →
      (sumFor ord.id (matchLimit clock k ord opp).reports +
          (matchLimit clock k ord opp).order.quantity = ord.quantity) ∧
      (∀ b ∈ opp, sumFor b.id (matchLimit clock k ord opp).reports +
          qtyFor b.id (matchLimit clock k ord opp).opp = b.quantity) ∧
      (∀ b ∈ opp, sumFor b.id (matchLimit clock k ord opp).reports ≤ b.quantity)) ∧
    -- per-submit conservation, market path
    (∀ (clock : Nat → Nat) (k : Nat) (ord : Order) (opp : List Order),
      (opp.map Order.id).Nodup → ord.id ∉ opp.map Order.id →
      (sumFor ord.id (executeMarket clock k ord opp).reports +
          (executeMarket clock k ord opp).order.quantity = ord.quantity) ∧
      (∀ b ∈ opp, sumFor b.id (executeMarket clock k ord opp).reports +
          qtyFor b.id (executeMarket clock k ord opp).opp = b.quantity) ∧
      (∀ b ∈ opp, sumFor b.id (executeMarket clock k ord opp).reports ≤ b.quantity)) ∧
    -- lifetime conservation across any sequence of submits
    (∀ (clock : Nat → Nat) (book : Book) (orders : List Order) (i : String),
      (book.bids.map Order.id).Nodup → (book.asks.map Order.id).Nodup →
      (∀ o ∈ orders, o.id ∉ book.bids.map Order.id ∧
        o.id ∉ book.asks.map Order.id) →
      (orders.map Order.id).Nodup →
      (∀ o ∈ orders, o.id ≠ i) →
      sumFor i (runOrders clock book orders).1 +
          bookQtyFor i (runOrders clock book orders).2 = bookQtyFor i book ∧
        sumFor i (runOrders clock book orders).1 ≤ bookQtyFor i book) := by
  refine ⟨matchLimit_step, executeMarket_step, ?_, ?_, ?_⟩
  · intro clock k ord opp hnod hid
    rw [matchLimit_eq_loopGen]
    refine ⟨loopGen_agg_conserve _ clock k ord opp hid,
      loopGen_rest_conserve _ clock k ord opp hnod hid, ?_⟩
    intro b hb
    have := loopGen_rest_conserve limitStop clock k ord opp hnod hid b hb
    omega
  · intro clock k ord opp hnod hid
    rw [executeMarket_eq_loopGen]
    refine ⟨loopGen_agg_conserve _ clock k ord opp hid,
      loopGen_rest_conserve _ clock k ord opp hnod hid, ?_⟩
    intro b hb
    have := loopGen_rest_conserve (fun _ _ => false) clock k ord opp hnod hid b hb
    omega
  · intro clock book orders i hnb hna hfresh hdist hi
    have := runOrders_conserve clock book orders i hnb hna hfresh hdist hi
    omega

/-- Witness for C2: lifetime fills against bid `p1` across two submits total
at most (and here exactly) its original quantity 4. -/
theorem claim2_conservation_witness :
    (([⟨"p1", "X", "buy", 4, "limit", 120, some 3⟩] : List Order).map
      Order.id).Nodup ∧
      (sumFor "p1" (runOrders wClock ⟨[⟨"p1", "X", "buy", 4, "limit", 120, some 3⟩], []⟩
            [⟨"s5", "X", "sell", 3, "limit", 120, some 5⟩,
             ⟨"s6", "X", "sell", 3, "limit", 120, some 6⟩]).1 +
          bookQtyFor "p1" (runOrders wClock
            ⟨[⟨"p1", "X", "buy", 4, "limit", 120, some 3⟩], []⟩
            [⟨"s5", "X", "sell", 3, "limit", 120, some 5⟩,
             ⟨"s6", "X", "sell", 3, "limit", 120, some 6⟩]).2 =
          bookQtyFor "p1" ⟨[⟨"p1", "X", "buy", 4, "limit", 120, some 3⟩], []⟩ ∧
        sumFor "p1" (runOrders wClock ⟨[⟨"p1", "X", "buy", 4, "limit", 120, some 3⟩], []⟩
            [⟨"s5", "X", "sell", 3, "limit", 120, some 5⟩,
             ⟨"s6", "X", "sell", 3, "limit", 120, some 6⟩]).1 ≤
          bookQtyFor "p1" ⟨[⟨"p1", "X", "buy", 4, "limit", 120, some 3⟩], []⟩) :=
  ⟨by decide,
    claim2_conservation.2.2.2.2 wClock
      ⟨[⟨"p1", "X", "buy", 4, "limit", 120, some 3⟩], []⟩
      [⟨"s5", "X", "sell", 3, "limit", 120, some 5⟩,
       ⟨"s6", "X", "sell", 3, "limit", 120, some 6⟩] "p1"
      (by decide) (by decide) (by decide) (by decide) (by decide)⟩

/-- C6: a submitted market order consumes resting liquidity on the opposite
side best price first until its quantity reaches zero or that side is
exhausted; any unfilled remainder is discarded — after submit the market
order is in neither side and the same-side list is unchanged. -/
theorem claim6_market (clock : Nat → Nat) (book : Book) (ord : Order)
    (hm : ord.type = "market")
    (hfb : ord.id ∉ book.bids.map Order.id)
    (hfa : ord.id ∉ book.asks.map Order.id) :
    (ord.side = "buy" →
      (addOrder clock book ord).2.bids = book.bids ∧
      consumedFromFront book.asks (addOrder clock book ord).2.asks) ∧
    (ord.side ≠ "buy" →
      (addOrder clock book ord).2.asks = book.asks ∧
      consumedFromFront book.bids (addOrder clock book ord).2.bids) ∧
    (∀ (k : Nat) (o : Order) (opp : List Order),
      (executeMarket clock k o opp).order.quantity = 0 ∨
        (executeMarket clock k o opp).opp = []) ∧
    (∀ o ∈ (addOrder clock book ord).2.bids, o.id ≠ ord.id) ∧
    (∀ o ∈ (addOrder clock book ord).2.asks, o.id ≠ ord.id) := by
  have htype : (stamped clock ord).type = ord.type := (stamped_fields clock ord).2.2.2.2.1
  have hside : (stamped clock ord).side = ord.side := (stamped_fields clock ord).2.2.1
  simp only [addOrder]
  rw [htype, hm, if_pos rfl, hside]
  by_cases hs : ord.side = "buy"
  · rw [if_pos hs]
    dsimp only
    refine ⟨fun _ => ⟨rfl, ?_⟩, fun h => absurd hs h, fun k o opp =>
      executeMarket_exhausts clock k o opp, ?_, ?_⟩
    · rw [executeMarket_eq_loopGen]
      exact loopGen_consumedFromFront _ clock _ _ book.asks
    · intro o ho he
      exact hfb (he ▸ List.mem_map_of_mem Order.id ho)
    · intro o ho he
      rw [executeMarket_eq_loopGen] at ho
      have := loopGen_opp_ids_mem _ clock _ _ book.asks o.id
        (List.mem_map_of_mem Order.id ho)
      exact hfa (he ▸ this)
  · rw [if_neg hs]
    dsimp only
    refine ⟨fun h => absurd h hs, fun _ => ⟨rfl, ?_⟩, fun k o opp =>
      executeMarket_exhausts clock k o opp, ?_, ?_⟩
    · rw [executeMarket_eq_loopGen]
      exact loopGen_consumedFromFront _ clock _ _ book.bids
    · intro o ho he
      rw [executeMarket_eq_loopGen] at ho
      have := loopGen_opp_ids_mem _ clock _ _ book.bids o.id
        (List.mem_map_of_mem Order.id ho)
      exact hfb (he ▸ this)
    · intro o ho he
      exact hfa (he ▸ List.mem_map_of_mem Order.id ho)

/-- Witness for C6: market buy 7 against asks of depth 5 and 9. -/
theorem claim6_market_witness :
    ((⟨"m1", "X", "buy", 7, "market", 0, none⟩ : Order).type = "market" ∧
      "m1" ∉ (([] : List Order)).map Order.id ∧
      "m1" ∉ ([⟨"a1", "X", "sell", 5, "limit", 150, some 1⟩,
        ⟨"a2", "X", "sell", 9, "limit", 151, some 2⟩] : List Order).map Order.id) ∧
      ((⟨"m1", "X", "buy", 7, "market", 0, none⟩ : Order).side = "buy" →
        (addOrder wClock ⟨[], [⟨"a1", "X", "sell", 5, "limit", 150, some 1⟩,
            ⟨"a2", "X", "sell", 9, "limit", 151, some 2⟩]⟩
          ⟨"m1", "X", "buy", 7, "market", 0, none⟩).2.bids = [] ∧
        consumedFromFront [⟨"a1", "X", "sell", 5, "limit", 150, some 1⟩,
            ⟨"a2", "X", "sell", 9, "limit", 151, some 2⟩]
          (addOrder wClock ⟨[], [⟨"a1", "X", "sell", 5, "limit", 150, some 1⟩,
            ⟨"a2", "X", "sell", 9, "limit", 151, some 2⟩]⟩
          ⟨"m1", "X", "buy", 7, "market", 0, none⟩).2.asks) :=
  ⟨⟨rfl, by decide, by decide⟩,
    (claim6_market wClock ⟨[], [⟨"a1", "X", "sell", 5, "limit", 150, some 1⟩,
        ⟨"a2", "X", "sell", 9, "limit", 151, some 2⟩]⟩
      ⟨"m1", "X", "buy", 7, "market", 0, none⟩ rfl (by decide) (by decide)).1⟩

/-- C7: a limit or stop remainder is inserted after every resting order with
a strictly better price and, among equal-price orders, after all with
timestamp `<=` its own and before any with a later timestamp (every such
later order ends up strictly after the new one); the insertion never changes
the relative order of two orders already resting. -/
theorem claim7_insertion (ord : Order) (l : List Order)
    (hsorted : l.Pairwise (sideRel ord))
    (hts : ∀ x ∈ l, x.timestamp.isSome) (hot : ord.timestamp.isSome) :
    ∃ l1 l2, l = l1 ++ l2 ∧ insertResting ord l = l1 ++ ord :: l2 ∧
      (∀ x ∈ l, strictlyBetter ord x → x ∈ l1) ∧
      (∀ x ∈ l, x.price = ord.price → tsVal x ≤ tsVal ord → x ∈ l1) ∧
      (∀ x ∈ l2, x.price = ord.price → tsVal ord < tsVal x) ∧
      (∀ x ∈ l2, ¬ strictlyBetter ord x) ∧
      (∀ x ∈ l1, strictlyBetter ord x ∨
        (x.price = ord.price ∧ tsVal x ≤ tsVal ord)) ∧
      (∀ x ∈ l, x.price = ord.price → tsVal ord < tsVal x → x ∈ l2) := by
  obtain ⟨l1, l2, he, hr, h1, h2⟩ := insertResting_split_sorted ord l hsorted hts hot
  refine ⟨l1, l2, he, hr, ?_, ?_, fun x hx => (h2 x hx).2, fun x hx => (h2 x hx).1,
    h1, ?_⟩
  · intro x hx hbet
    rw [he] at hx
    rcases List.mem_append.mp hx with h | h
    · exact h
    · exact absurd hbet (h2 x h).1
  · intro x hx hp hle
    rw [he] at hx
    rcases List.mem_append.mp hx with h | h
    · exact h
    · exact absurd ((h2 x h).2 hp) (by omega)
  · intro x hx hp hgt
    rw [he] at hx
    rcases List.mem_append.mp hx with h | h
    · exfalso
      rcases h1 x h with hb | ⟨_, hle⟩
      · unfold strictlyBetter at hb
        by_cases hs : ord.side = "buy"
        · rw [if_pos hs] at hb; omega
        · rw [if_neg hs] at hb; omega
      · omega
    · exact h

/-- Witness for C7: inserting a buy 10@100 (timestamp 7) into a sorted bid
side with orders at 101 and at 100 with timestamps 5 and 9. -/
theorem claim7_insertion_witness :
    (([⟨"q1", "X", "buy", 1, "limit", 101, some 2⟩,
        ⟨"q2", "X", "buy", 2, "limit", 100, some 5⟩,
        ⟨"q3", "X", "buy", 3, "limit", 100, some 9⟩] : List Order).Pairwise
          (sideRel ⟨"q4", "X", "buy", 10, "limit", 100, some 7⟩) ∧
      (∀ x ∈ ([⟨"q1", "X", "buy", 1, "limit", 101, some 2⟩,
        ⟨"q2", "X", "buy", 2, "limit", 100, some 5⟩,
        ⟨"q3", "X", "buy", 3, "limit", 100, some 9⟩] : List Order),
          x.timestamp.isSome) ∧
      (⟨"q4", "X", "buy", 10, "limit", 100, some 7⟩ : Order).timestamp.isSome) ∧
      (∃ l1 l2, ([⟨"q1", "X", "buy", 1, "limit", 101, some 2⟩,
          ⟨"q2", "X", "buy", 2, "limit", 100, some 5⟩,
          ⟨"q3", "X", "buy", 3, "limit", 100, some 9⟩] : List Order) = l1 ++ l2 ∧
        insertResting ⟨"q4", "X", "buy", 10, "limit", 100, some 7⟩
            [⟨"q1", "X", "buy", 1, "limit", 101, some 2⟩,
             ⟨"q2", "X", "buy", 2, "limit", 100, some 5⟩,
             ⟨"q3", "X", "buy", 3, "limit", 100, some 9⟩] =
          l1 ++ (⟨"q4", "X", "buy", 10, "limit", 100, some 7⟩ : Order) :: l2 ∧
        (∀ x ∈ ([⟨"q1", "X", "buy", 1, "limit", 101, some 2⟩,
            ⟨"q2", "X", "buy", 2, "limit", 100, some 5⟩,
            ⟨"q3", "X", "buy", 3, "limit", 100, some 9⟩] : List Order),
          strictlyBetter ⟨"q4", "X", "buy", 10, "limit", 100, some 7⟩ x → x ∈ l1) ∧
        (∀ x ∈ ([⟨"q1", "X", "buy", 1, "limit", 101, some 2⟩,
            ⟨"q2", "X", "buy", 2, "limit", 100, some 5⟩,
            ⟨"q3", "X", "buy", 3, "limit", 100, some 9⟩] : List Order),
          x.price = (100 : Int) →
          tsVal x ≤ tsVal ⟨"q4", "X", "buy", 10, "limit", 100, some 7⟩ → x ∈ l1) ∧
        (∀ x ∈ l2, x.price = (100 : Int) →
          tsVal (⟨"q4", "X", "buy", 10, "limit", 100, some 7⟩ : Order) < tsVal x) ∧
        (∀ x ∈ l2, ¬ strictlyBetter ⟨"q4", "X", "buy", 10, "limit", 100, some 7⟩ x) ∧
        (∀ x ∈ l1, strictlyBetter ⟨"q4", "X", "buy", 10, "limit", 100, some 7⟩ x ∨
          (x.price = (100 : Int) ∧
            tsVal x ≤ tsVal (⟨"q4", "X", "buy", 10, "limit", 100, some 7⟩ : Order))) ∧
        (∀ x ∈ ([⟨"q1", "X", "buy", 1, "limit", 101, some 2⟩,
            ⟨"q2", "X", "buy", 2, "limit", 100, some 5⟩,
            ⟨"q3", "X", "buy", 3, "limit", 100, some 9⟩] : List Order),
          x.price = (100 : Int) →
          tsVal (⟨"q4", "X", "buy", 10, "limit", 100, some 7⟩ : Order) < tsVal x →
            x ∈ l2)) :=
  ⟨⟨by decide, by decide, by decide⟩,
    claim7_insertion ⟨"q4", "X", "buy", 10, "limit", 100, some 7⟩
      [⟨"q1", "X", "buy", 1, "limit", 101, some 2⟩,
       ⟨"q2", "X", "buy", 2, "limit", 100, some 5⟩,
       ⟨"q3", "X", "buy", 3, "limit", 100, some 9⟩]
      (by decide) (by decide) (by decide)⟩

/-- C8: submitting a limit order that cannot cross any resting counterparty
(including against an empty opposite side) produces zero reports, leaves the
opposite side unchanged, and adds exactly one new resting order to the
order's own side carrying the input's quantity, price and side, with a
timestamp assigned if absent. -/
theorem claim8_noncrossing (clock : Nat → Nat) (book : Book) (ord : Order)
    (hlim : ord.type = "limit") (hq : 0 < ord.quantity) :
    (ord.side = "buy" → (∀ a ∈ book.asks, ord.price < a.price) →
      (addOrder clock book ord).1 = [] ∧
      (addOrder clock book ord).2.asks = book.asks ∧
      ∃ l1 l2, book.bids = l1 ++ l2 ∧
        (addOrder clock book ord).2.bids = l1 ++ stamped clock ord :: l2) ∧
    (ord.side = "sell" → (∀ b ∈ book.bids, b.price < ord.price) →
      (addOrder clock book ord).1 = [] ∧
      (addOrder clock book ord).2.bids = book.bids ∧
      ∃ l1 l2, book.asks = l1 ++ l2 ∧
        (addOrder clock book ord).2.asks = l1 ++ stamped clock ord :: l2) ∧
    ((stamped clock ord).quantity = ord.quantity ∧
      (stamped clock ord).price = ord.price ∧
      (stamped clock ord).side = ord.side ∧
      (stamped clock ord).timestamp.isSome ∧
      (ord.timestamp ≠ none → (stamped clock ord).timestamp = ord.timestamp)) := by
  have htype : (stamped clock ord).type = ord.type := (stamped_fields clock ord).2.2.2.2.1
  have hsideS : (stamped clock ord).side = ord.side := (stamped_fields clock ord).2.2.1
  have hqS : (stamped clock ord).quantity = ord.quantity := (stamped_fields clock ord).2.2.2.1
  have hpS : (stamped clock ord).price = ord.price := (stamped_fields clock ord).2.2.2.2.2
  refine ⟨?_, ?_, hqS, hpS, hsideS, stamped_isSome clock ord,
    fun h => by unfold stamped; rw [if_neg h]⟩
  · intro hside hnc
    have hstops : matchLimit clock (startTick ord) (stamped clock ord) book.asks =
        ⟨[], stamped clock ord, book.asks, startTick ord⟩ := by
      cases hA : book.asks with
      | nil => rfl
      | cons best rest =>
        exact matchLimit_stops_buy clock (startTick ord) (stamped clock ord)
          best rest (by rw [hsideS, hside])
          (by rw [hpS]; exact hnc best (by rw [hA]; exact List.mem_cons_self _ _))
    simp only [addOrder]
    rw [htype, hlim, if_neg (by decide : ¬ ("limit" = "market")), if_pos rfl]
    unfold limitFlow
    rw [hsideS, hside, if_pos rfl, hstops]
    dsimp only
    rw [if_pos (by rw [hqS]; exact hq)]
    obtain ⟨l1, l2, he, hr⟩ := insertResting_split (stamped clock ord) book.bids
    exact ⟨rfl, rfl, l1, l2, he, hr⟩
  · intro hside hnc
    have hstops : matchLimit clock (startTick ord) (stamped clock ord) book.bids =
        ⟨[], stamped clock ord, book.bids, startTick ord⟩ := by
      cases hB : book.bids with
      | nil => rfl
      | cons best rest =>
        exact matchLimit_stops_sell clock (startTick ord) (stamped clock ord)
          best rest (by rw [hsideS, hside])
          (by rw [hpS]; exact hnc best (by rw [hB]; exact List.mem_cons_self _ _))
    simp only [addOrder]
    rw [htype, hlim, if_neg (by decide : ¬ ("limit" = "market")), if_pos rfl]
    unfold limitFlow
    rw [hsideS, hside, if_neg (by decide : ¬ ("sell" = "buy")), hstops]
    dsimp only
    rw [if_pos (by rw [hqS]; exact hq)]
    obtain ⟨l1, l2, he, hr⟩ := insertResting_split (stamped clock ord) book.asks
    exact ⟨rfl, rfl, l1, l2, he, hr⟩

/-- Witness for C8: buy limit 3@140 against best ask 150 (cannot cross). -/
theorem claim8_noncrossing_witness :
    (wBuy.type = "limit" ∧ 0 < wBuy.quantity ∧ wBuy.side = "buy" ∧
      (∀ a ∈ wBook.asks, wBuy.price < a.price)) ∧
      ((addOrder wClock wBook wBuy).1 = [] ∧
        (addOrder wClock wBook wBuy).2.asks = wBook.asks ∧
        ∃ l1 l2, wBook.bids = l1 ++ l2 ∧
          (addOrder wClock wBook wBuy).2.bids = l1 ++ stamped wClock wBuy :: l2) :=
  ⟨⟨rfl, by decide, rfl, by decide⟩,
    (claim8_noncrossing wClock wBook wBuy rfl (by decide)).1 rfl (by decide)⟩

/-- Counterexample data for C9: a crossing buy limit, matched under two
different ambient clocks. -/
def cxAsk : Order := ⟨"s1", "X", "sell", 5, "limit", 100, some 1⟩

def cxBuy : Order := ⟨"b2", "X", "buy", 5, "limit", 100, some 2⟩

def cxBook : Book := ⟨[], [cxAsk]⟩

/-- C9 counterexample: two runs of submit from the same book state with the
same incoming order, executed at different wall-clock instants (modelled by
two ambient clocks), return different report sequences — the report
timestamps differ — so submit is not a function of (book state, order)
alone. -/
theorem claim9_counterexample :
    addOrder (fun _ => 0) cxBook cxBuy ≠ addOrder (fun _ => 1) cxBook cxBuy := by
  decide

/-- C9 (amended): submit is deterministic given the ambient clock readings;
runs under different clocks agree on the whole report sequence except the
timestamp field, and (when the incoming order already carries a timestamp)
produce identical resulting book states. -/
theorem claim9_deterministic_up_to_clock (c1 c2 : Nat → Nat) (book : Book)
    (ord : Order) :
    (addOrder c1 book ord = addOrder c1 book ord) ∧
    (addOrder c1 book ord).1.map stripTs = (addOrder c2 book ord).1.map stripTs ∧
      (ord.timestamp ≠ none →
        (addOrder c1 book ord).2 = (addOrder c2 book ord).2) :=
  ⟨rfl, (addOrder_clock c1 c2 book ord).1, (addOrder_clock c1 c2 book ord).2⟩

/-- Witness for C9 (amended): the counterexample pair of runs agrees up to
timestamps and on the final books. -/
theorem claim9_deterministic_up_to_clock_witness :
    cxBuy.timestamp ≠ none ∧
      ((addOrder (fun _ => 0) cxBook cxBuy =
          addOrder (fun _ => 0) cxBook cxBuy) ∧
        (addOrder (fun _ => 0) cxBook cxBuy).1.map stripTs =
          (addOrder (fun _ => 1) cxBook cxBuy).1.map stripTs ∧
        (addOrder (fun _ => 0) cxBook cxBuy).2 =
          (addOrder (fun _ => 1) cxBook cxBuy).2) :=
  ⟨by decide,
    (claim9_deterministic_up_to_clock (fun _ => 0) (fun _ => 1) cxBook cxBuy).1,
    (claim9_deterministic_up_to_clock (fun _ => 0) (fun _ => 1) cxBook cxBuy).2.1,
    (claim9_deterministic_up_to_clock (fun _ => 0) (fun _ => 1) cxBook cxBuy).2.2
      (by decide)⟩

/-- C10: every submitted order whose kind is neither `"market"` nor
`"limit"` — `"stop"` or any other string — is processed exactly through the
limit path (match under the price gate, then rest any remainder); no input
kind is rejected. -/
theorem claim10_nonmarket_limit_path (clock : Nat → Nat) (book : Book)
    (ord : Order) (hm : ord.type ≠ "market") :
    addOrder clock book ord =
      limitFlow clock (startTick ord) book (stamped clock ord) := by
  have htype : (stamped clock ord).type = ord.type := (stamped_fields clock ord).2.2.2.2.1
  simp only [addOrder]
  rw [htype, if_neg hm]
  by_cases hl : ord.type = "limit"
  · rw [if_pos hl]
  · rw [if_neg hl]

/-- Witness for C10: a stop order takes the limit path. -/
theorem claim10_nonmarket_limit_path_witness :
    (⟨"st1", "X", "sell", 2, "stop", 120, some 5⟩ : Order).type ≠ "market" ∧
      addOrder wClock wBook ⟨"st1", "X", "sell", 2, "stop", 120, some 5⟩ =
        limitFlow wClock (startTick ⟨"st1", "X", "sell", 2, "stop", 120, some 5⟩)
          wBook (stamped wClock ⟨"st1", "X", "sell", 2, "stop", 120, some 5⟩) :=
  ⟨by decide,
    claim10_nonmarket_limit_path wClock wBook
      ⟨"st1", "X", "sell", 2, "stop", 120, some 5⟩ (by decide)⟩

end LOB
